import Mathlib

/-!
Verification of the obsidian-smart-search repository (src/shared.py, src/daemon.py,
src/client.py, src/indexer.py) against its natural-language specification.

The Python source is shallowly embedded: pure functions become Lean functions over
`List Char` / `String` / `ℚ`; the daemon's per-connection request handling becomes a
pure step function from the received payload and the in-memory index mapping to a
`StepResult` (reply sent, uncaught exception, new index mapping, running flag).
External collaborators (the sentence-transformers embedding model, numpy's cosine
kernel, the json stdlib) are modelled at their interfaces: the embedding model as an
abstract `encode` function, the float similarity kernel as an abstract score function
(its numeric definition is modelled separately over ℝ for the division-safety claim),
and `json.loads` as a small recursive-descent parser producing a JSON value.
Machine floats are modelled by exact rationals (scores) and reals (cosine); text is
modelled at character level (the payloads of interest are ASCII, so bytes = chars).
-/

namespace SmartSearch

/-! ## Python string primitives (shared by chunker, booster and cache-name models)

`pyBound` is Python's slice-index normalisation: negative indices count from the end,
and everything is clamped into `[0, n]`.  `pySlice s a b` is `s[a:b]`,
`rfindNN s a b` is `s.rfind('\n\n', a, b)`, `pyStrip` is `str.strip()`,
`pySplitWs` is `str.split()` (split on whitespace runs, dropping empties). -/

def pyBound (n : Nat) (i : Int) : Nat :=
  if i < 0 then (max 0 ((n : Int) + i)).toNat else min n i.toNat

def pySlice (l : List Char) (a b : Int) : List Char :=
  (l.take (pyBound l.length b)).drop (pyBound l.length a)

/-- Python whitespace characters stripped by `str.strip()` (ASCII range). -/
def isPyWs (c : Char) : Bool :=
  c = ' ' ∨ c = '\t' ∨ c = '\n' ∨ c = '\r' ∨ c = '\x0b' ∨ c = '\x0c'

def pyStrip (l : List Char) : List Char :=
  ((l.dropWhile isPyWs).reverse.dropWhile isPyWs).reverse

def pySplitWs (s : String) : List String :=
  (s.split Char.isWhitespace).filter (fun w => w ≠ "")

/-- `needle in hay` for Python strings: substring containment. -/
def strIn (needle hay : String) : Bool :=
  decide (needle.toList <:+: hay.toList)

/-- `os.path.basename` (posix): everything after the last `'/'`. -/
def basename (p : String) : String :=
  String.mk ((p.toList.reverse.takeWhile (fun c => ¬ c = '/')).reverse)

/-- Python's `str.lower()` (ASCII case mapping, character by character). -/
def pyLower (s : String) : String := String.mk (s.data.map Char.toLower)

/-! ## Chunker — `shared.chunk_text`

```python
def chunk_text(text, chunk_size=CHUNK_SIZE, overlap=CHUNK_OVERLAP):
    if len(text) <= chunk_size:
        return [text]
    chunks = []
    start = 0
    text_len = len(text)
    while start < text_len:
        end = min(start + chunk_size, text_len)
        if end < text_len:
            break_at = text.rfind('\n\n', start + chunk_size // 2, end)
            if break_at > start:
                end = break_at
        chunk = text[start:end].strip()
        if chunk:
            chunks.append(chunk)
        if end >= text_len:
            break
        start = end - overlap
    return chunks if chunks else [text]
```

The `while` loop is embedded with explicit fuel (`none` = fuel exhausted, which a
terminating run never is); `start` is an `Int` because `end - overlap` can go
negative, and Python then treats it as an index from the end of the string. -/

/-- The ascending list of in-bound candidate positions of a double newline in `s[a:b]`. -/
def rfindNNCands (l : List Char) (a b : Int) : List Nat :=
  (List.range' (pyBound l.length a) (pyBound l.length b - pyBound l.length a)).filter
    (fun i => decide (i + 2 ≤ pyBound l.length b) && decide ((l.drop i).take 2 = ['\n', '\n']))

/-- Model of Python's `text.rfind('\n\n', a, b)`: greatest candidate position
(after Python index normalisation), else `-1`. -/
def rfindNN (l : List Char) (a b : Int) : Int :=
  (rfindNNCands l a b).getLast?.elim (-1) (fun i => (i : Int))

/-- One iteration's `end` value: `end = min(start + chunk_size, text_len)`, snapped
back to the last paragraph break in `[start + chunk_size // 2, end)` when one exists
strictly after `start` (note `Int` division `/` is floor division, as Python's `//`). -/
def chunkEnd (text : List Char) (cs start : Int) : Int :=
  if min (start + cs) (text.length : Int) < (text.length : Int) then
    if start < rfindNN text (start + cs / 2) (min (start + cs) (text.length : Int)) then
      rfindNN text (start + cs / 2) (min (start + cs) (text.length : Int))
    else min (start + cs) (text.length : Int)
  else min (start + cs) (text.length : Int)

/-- `chunk = text[start:end].strip(); if chunk: chunks.append(chunk)`. -/
def nextChunks (text : List Char) (start e : Int) (chunks : List (List Char)) :
    List (List Char) :=
  if pyStrip (pySlice text start e) = [] then chunks
  else chunks ++ [pyStrip (pySlice text start e)]

def chunkLoop (text : List Char) (cs ov : Int) :
    Nat → Int → List (List Char) → Option (List (List Char))
  | 0, _, _ => none
  | fuel + 1, start, chunks =>
    if start < (text.length : Int) then
      if (text.length : Int) ≤ chunkEnd text cs start then
        some (nextChunks text start (chunkEnd text cs start) chunks)
      else
        chunkLoop text cs ov fuel (chunkEnd text cs start - ov)
          (nextChunks text start (chunkEnd text cs start) chunks)
    else some chunks

def chunk_text (fuel : Nat) (text : List Char) (cs ov : Int) : Option (List (List Char)) :=
  if (text.length : Int) ≤ cs then some [text]
  else
    match chunkLoop text cs ov fuel 0 [] with
    | none => none
    | some chunks => some (if chunks = [] then [text] else chunks)

/-- `chunk_text` never finishes, whatever fuel the loop is given. -/
def chunkTextDiverges (text : List Char) (cs ov : Int) : Prop :=
  ∀ fuel : Nat, chunk_text fuel text cs ov = none

/-! ### Chunker lemmas -/

lemma mem_of_getLast?_eq_some {α : Type} {l : List α} {a : α}
    (h : l.getLast? = some a) : a ∈ l := by
  obtain ⟨hne, heq⟩ := List.mem_getLast?_eq_getLast (Option.mem_def.mpr h)
  exact heq ▸ List.getLast_mem hne

lemma pyBound_le (n : Nat) (i : Int) : pyBound n i ≤ n := by
  unfold pyBound
  split <;> omega

lemma pyBound_int_eq (n : Nat) (i : Int) (h0 : 0 ≤ i) (h1 : i ≤ n) :
    (pyBound n i : Int) = i := by
  unfold pyBound
  split <;> omega

lemma pyBound_ge_eq (n : Nat) (i : Int) (h0 : 0 ≤ i) (h1 : (n : Int) ≤ i) :
    pyBound n i = n := by
  unfold pyBound
  split <;> omega

lemma rfindNN_bounds (l : List Char) (a b : Int)
    (h : rfindNN l a b ≠ -1) :
    (pyBound l.length a : Int) ≤ rfindNN l a b ∧
      rfindNN l a b + 2 ≤ (pyBound l.length b : Int) := by
  unfold rfindNN at *
  rcases hE : (rfindNNCands l a b).getLast? with _ | i
  · rw [hE] at h; simp at h
  · have hmem : i ∈ rfindNNCands l a b := mem_of_getLast?_eq_some hE
    rw [rfindNNCands, List.mem_filter] at hmem
    obtain ⟨hrange, hpred⟩ := hmem
    rw [List.mem_range'_1] at hrange
    simp only [Bool.and_eq_true, decide_eq_true_eq] at hpred
    simp only [Option.elim_some]
    omega

/-- If this iteration's `end` still lies strictly before the text's end, then it is
at least `start + chunk_size // 2`. -/
lemma chunkEnd_ge (text : List Char) (cs start : Int) (hcs : 0 < cs) (h0 : 0 ≤ start)
    (hlt : chunkEnd text cs start < (text.length : Int)) :
    start + cs / 2 ≤ chunkEnd text cs start := by
  unfold chunkEnd at *
  by_cases hE : min (start + cs) (text.length : Int) < (text.length : Int)
  · rw [if_pos hE] at hlt ⊢
    by_cases hba : start < rfindNN text (start + cs / 2) (min (start + cs) (text.length : Int))
    · rw [if_pos hba] at hlt ⊢
      have hne : rfindNN text (start + cs / 2) (min (start + cs) (text.length : Int)) ≠ -1 := by
        omega
      obtain ⟨hlo, hhi⟩ := rfindNN_bounds text _ _ hne
      have hble := pyBound_le text.length (min (start + cs) (text.length : Int))
      by_cases hcse : start + cs / 2 ≤ (text.length : Int)
      · have := pyBound_int_eq text.length (start + cs / 2) (by omega) hcse
        omega
      · have := pyBound_ge_eq text.length (start + cs / 2) (by omega) (by omega)
        omega
    · rw [if_neg hba] at hlt ⊢
      omega
  · rw [if_neg hE] at hlt ⊢
    omega

lemma chunkLoop_some (text : List Char) (cs ov : Int) (hcs : 0 < cs) (hov : ov < cs / 2) :
    ∀ (fuel : Nat) (start : Int) (chunks : List (List Char)),
      0 ≤ start → 1 ≤ fuel → (text.length : Int) + 1 ≤ start + fuel →
      ∃ r, chunkLoop text cs ov fuel start chunks = some r := by
  intro fuel
  induction fuel with
  | zero => intro start chunks _ h1 _; omega
  | succ n ih =>
    intro start chunks h0 _ hfu
    rw [chunkLoop]
    by_cases hlt : start < (text.length : Int)
    · rw [if_pos hlt]
      by_cases hend : (text.length : Int) ≤ chunkEnd text cs start
      · rw [if_pos hend]; exact ⟨_, rfl⟩
      · rw [if_neg hend]
        have hge : start + cs / 2 ≤ chunkEnd text cs start :=
          chunkEnd_ge text cs start hcs h0 (by omega)
        exact ih (chunkEnd text cs start - ov) _ (by omega) (by omega) (by omega)
    · rw [if_neg hlt]; exact ⟨chunks, rfl⟩

/-- **C3** (amended): for every text, every `chunk_size > 0` and every
`overlap < chunk_size // 2` (floor division — the original precondition
`overlap < chunk_size` is not enough, see `chunk_text_nontermination`),
`chunk_text` terminates — fuel `text.length + 1` always suffices for the loop —
and returns a non-empty sequence of chunks; moreover whenever the loop produced
no non-empty trimmed chunk, the whole original text is returned as a single chunk. -/
theorem chunk_text_terminates (text : List Char) (cs ov : Int)
    (hcs : 0 < cs) (hov : ov < cs / 2) :
    (∃ r, chunk_text (text.length + 1) text cs ov = some r ∧ r ≠ []) ∧
    (∀ fuel r, chunk_text fuel text cs ov = some r → r ≠ []) ∧
    (∀ fuel, chunkLoop text cs ov fuel 0 [] = some [] →
      chunk_text fuel text cs ov = some [text]) := by
  refine ⟨?_, ?_, ?_⟩
  · unfold chunk_text
    by_cases hle : (text.length : Int) ≤ cs
    · rw [if_pos hle]; exact ⟨[text], rfl, by simp⟩
    · rw [if_neg hle]
      obtain ⟨r, hr⟩ := chunkLoop_some text cs ov hcs hov (text.length + 1) 0 []
        le_rfl (by omega) (by omega)
      rw [hr]
      refine ⟨if r = [] then [text] else r, rfl, ?_⟩
      split <;> simp_all
  · intro fuel r hr
    unfold chunk_text at hr
    split at hr
    · simp only [Option.some.injEq] at hr; simp [← hr]
    · rcases hL : chunkLoop text cs ov fuel 0 [] with _ | chunks <;> rw [hL] at hr
      · exact absurd hr (by simp)
      · simp only [Option.some.injEq] at hr
        subst hr; split <;> simp_all
  · intro fuel hL
    unfold chunk_text
    split
    · rfl
    · rw [hL]; rfl

/-- The text, chunk size and overlap on which `chunk_text` loops forever even though
`overlap < chunk_size`: from `start = 0` the paragraph break at index 2 snaps `end`
to 2, the large overlap sends `start` to `-1` (a Python index from the end), and the
next iteration returns `start` to `0`. -/
def c3Text : List Char := "ab\n\ncdefgh".toList

lemma c3_step_zero (n : Nat) (chunks : List (List Char)) :
    chunkLoop c3Text 4 3 (n + 1) 0 chunks = chunkLoop c3Text 4 3 n (-1) (chunks ++ [['a', 'b']]) :=
  rfl

lemma c3_step_neg (n : Nat) (chunks : List (List Char)) :
    chunkLoop c3Text 4 3 (n + 1) (-1) chunks = chunkLoop c3Text 4 3 n 0 chunks :=
  rfl

lemma c3_loop_none (n : Nat) :
    (∀ chunks, chunkLoop c3Text 4 3 n 0 chunks = none) ∧
      (∀ chunks, chunkLoop c3Text 4 3 n (-1) chunks = none) := by
  induction n with
  | zero => exact ⟨fun _ => rfl, fun _ => rfl⟩
  | succ n ih =>
    exact ⟨fun chunks => (c3_step_zero n chunks).trans (ih.2 _),
      fun chunks => (c3_step_neg n chunks).trans (ih.1 _)⟩

/-- **C3** (counterexample): with `chunk_size = 4` and `overlap = 3` — which satisfy
the claim's precondition `overlap < chunk_size` — `chunk_text` never terminates on
the ten-character text `"ab\n\ncdefgh"`: the loop state cycles between `start = 0`
and `start = -1` while appending the chunk `"ab"` forever. -/
theorem chunk_text_nontermination : chunkTextDiverges c3Text 4 3 := by
  intro fuel
  unfold chunk_text
  rw [if_neg (by decide), (c3_loop_none fuel).1 []]

/-- Witness for `chunk_text_terminates`: the concrete call
`chunk_text("abcdefgh", chunk_size=4, overlap=1)` satisfies the precondition and
terminates with a non-empty chunk list. -/
theorem chunk_text_terminates_witness :
    (0 : Int) < 4 ∧ (1 : Int) < 4 / 2 ∧
      ∃ r, chunk_text ("abcdefgh".toList.length + 1) "abcdefgh".toList 4 1 = some r ∧ r ≠ [] :=
  ⟨by decide, by decide,
    (chunk_text_terminates "abcdefgh".toList 4 1 (by decide) (by decide)).1⟩

/-! ## Hybrid keyword boost — `shared.hybrid_boost`

```python
def hybrid_boost(path, query_words):
    if not query_words:
        return 0.0
    path_lower = path.lower()
    filename = os.path.basename(path).lower()
    filename_boost = 0.0
    path_boost = 0.0
    for word in query_words:
        if word == filename or word + ".py" == filename or word + ".md" == filename:
            filename_boost = max(filename_boost, 0.4)
        elif word in filename:
            filename_boost = max(filename_boost, 0.2)
        elif word in path_lower:
            path_boost = max(path_boost, 0.1)
    return filename_boost + path_boost
```

Float literals become exact rationals (`0.4 = 2/5` etc.); the accumulator pair is
`(filename_boost, path_boost)`. -/

/-- The loop body of `hybrid_boost` for one query word. -/
def boostStep (path_lower filename : String) (acc : ℚ × ℚ) (word : String) : ℚ × ℚ :=
  if word = filename ∨ word ++ ".py" = filename ∨ word ++ ".md" = filename then
    (max acc.1 (2/5), acc.2)
  else if strIn word filename then (max acc.1 (1/5), acc.2)
  else if strIn word path_lower then (acc.1, max acc.2 (1/10))
  else acc

def sumPair (p : ℚ × ℚ) : ℚ := p.1 + p.2

def hybrid_boost (path : String) (query_words : List String) : ℚ :=
  if query_words = [] then 0
  else sumPair
    (query_words.foldl (boostStep (pyLower path) (pyLower (basename path))) (0, 0))

/-! Definitions transcribing the claim's per-word characterisation (spec §4.2),
to be compared against the `hybrid_boost` embedding of the source. -/

/-- Spec wording: the candidate filename-boost one word contributes. -/
def specWordFB (filename word : String) : ℚ :=
  if word = filename ∨ word ++ ".py" = filename ∨ word ++ ".md" = filename then 2/5
  else if strIn word filename then 1/5 else 0

/-- Spec wording: the candidate path-boost one word contributes (only words that
triggered no filename boost). -/
def specWordPB (path_lower filename word : String) : ℚ :=
  if word = filename ∨ word ++ ".py" = filename ∨ word ++ ".md" = filename then 0
  else if strIn word filename then 0
  else if strIn word path_lower then 1/10 else 0

/-- Spec wording: maximum filename-boost over all words. -/
def specMaxFB (filename : String) (ws : List String) : ℚ :=
  ws.foldr (fun w m => max (specWordFB filename w) m) 0

/-- Spec wording: maximum path-boost over all words. -/
def specMaxPB (path_lower filename : String) (ws : List String) : ℚ :=
  ws.foldr (fun w m => max (specWordPB path_lower filename w) m) 0

lemma specMaxFB_nonneg (fn : String) (ws : List String) : 0 ≤ specMaxFB fn ws := by
  induction ws with
  | nil => simp [specMaxFB]
  | cons w ws ih => simpa [specMaxFB] using Or.inr ih

lemma specMaxPB_nonneg (pl fn : String) (ws : List String) : 0 ≤ specMaxPB pl fn ws := by
  induction ws with
  | nil => simp [specMaxPB]
  | cons w ws ih => simpa [specMaxPB] using Or.inr ih

lemma specWordFB_le (fn w : String) : specWordFB fn w ≤ 2/5 := by
  unfold specWordFB
  split
  · norm_num
  · split <;> norm_num

lemma specWordPB_le (pl fn w : String) : specWordPB pl fn w ≤ 1/10 := by
  unfold specWordPB; split
  · norm_num
  · split
    · norm_num
    · split <;> norm_num

lemma specMaxFB_le (fn : String) (ws : List String) : specMaxFB fn ws ≤ 2/5 := by
  induction ws with
  | nil => norm_num [specMaxFB]
  | cons w ws ih =>
    simp only [specMaxFB, List.foldr_cons, max_le_iff]
    exact ⟨specWordFB_le fn w, ih⟩

lemma specMaxPB_le (pl fn : String) (ws : List String) : specMaxPB pl fn ws ≤ 1/10 := by
  induction ws with
  | nil => norm_num [specMaxPB]
  | cons w ws ih =>
    simp only [specMaxPB, List.foldr_cons, max_le_iff]
    exact ⟨specWordPB_le pl fn w, ih⟩

lemma specMaxFB_cons (fn w : String) (ws : List String) :
    specMaxFB fn (w :: ws) = max (specWordFB fn w) (specMaxFB fn ws) := rfl

lemma specMaxPB_cons (pl fn w : String) (ws : List String) :
    specMaxPB pl fn (w :: ws) = max (specWordPB pl fn w) (specMaxPB pl fn ws) := rfl

lemma boost_foldl (pl fn : String) :
    ∀ (ws : List String) (a b : ℚ), 0 ≤ a → 0 ≤ b →
      ws.foldl (boostStep pl fn) (a, b) =
        (max a (specMaxFB fn ws), max b (specMaxPB pl fn ws)) := by
  intro ws
  induction ws with
  | nil =>
    intro a b ha hb
    simp [specMaxFB, specMaxPB, max_eq_left, ha, hb]
  | cons w ws ih =>
    intro a b ha hb
    rw [List.foldl_cons, specMaxFB_cons, specMaxPB_cons]
    by_cases h1 : w = fn ∨ w ++ ".py" = fn ∨ w ++ ".md" = fn
    · rw [show boostStep pl fn (a, b) w = (max a (2/5), b) from by simp [boostStep, h1],
        show specWordFB fn w = 2/5 from by simp [specWordFB, h1],
        show specWordPB pl fn w = 0 from by simp [specWordPB, h1],
        ih _ _ (le_trans ha (le_max_left a _)) hb, max_assoc,
        max_eq_right (specMaxPB_nonneg pl fn ws)]
    · by_cases h2 : strIn w fn = true
      · rw [show boostStep pl fn (a, b) w = (max a (1/5), b) from by
            simp [boostStep, h1, h2],
          show specWordFB fn w = 1/5 from by simp [specWordFB, h1, h2],
          show specWordPB pl fn w = 0 from by simp [specWordPB, h1, h2],
          ih _ _ (le_trans ha (le_max_left a _)) hb, max_assoc,
          max_eq_right (specMaxPB_nonneg pl fn ws)]
      · by_cases h3 : strIn w pl = true
        · rw [show boostStep pl fn (a, b) w = (a, max b (1/10)) from by
              simp [boostStep, h1, h2, h3],
            show specWordFB fn w = 0 from by simp [specWordFB, h1, h2],
            show specWordPB pl fn w = 1/10 from by simp [specWordPB, h1, h2, h3],
            ih _ _ ha (le_trans hb (le_max_left b _)),
            max_eq_right (specMaxFB_nonneg fn ws), max_assoc]
        · rw [show boostStep pl fn (a, b) w = (a, b) from by simp [boostStep, h1, h2, h3],
            show specWordFB fn w = 0 from by simp [specWordFB, h1, h2],
            show specWordPB pl fn w = 0 from by simp [specWordPB, h1, h2, h3],
            ih _ _ ha hb, max_eq_right (specMaxFB_nonneg fn ws),
            max_eq_right (specMaxPB_nonneg pl fn ws)]

/-- **C7**: `hybrid_boost` always lies in `[0, 1/2]`, is exactly `0` on the empty
word list, and equals the spec's characterisation: the maximum per-word
filename-boost (0.4 exact / 0.2 substring) plus the maximum per-word path-boost
(0.1, only for words that triggered no filename boost). -/
theorem hybrid_boost_spec (path : String) (ws : List String) :
    0 ≤ hybrid_boost path ws ∧ hybrid_boost path ws ≤ 1/2 ∧
    hybrid_boost path [] = 0 ∧
    hybrid_boost path ws =
      specMaxFB (pyLower (basename path)) ws +
        specMaxPB (pyLower path) (pyLower (basename path)) ws := by
  have hchar : hybrid_boost path ws =
      specMaxFB (pyLower (basename path)) ws +
        specMaxPB (pyLower path) (pyLower (basename path)) ws := by
    unfold hybrid_boost
    rcases ws with _ | ⟨w, ws⟩
    · simp [specMaxFB, specMaxPB]
    · rw [if_neg (by simp)]
      rw [sumPair, boost_foldl _ _ _ 0 0 le_rfl le_rfl]
      rw [max_eq_right (specMaxFB_nonneg _ _), max_eq_right (specMaxPB_nonneg _ _ _)]
  refine ⟨?_, ?_, by simp [hybrid_boost], hchar⟩
  · rw [hchar]
    have := specMaxFB_nonneg (pyLower (basename path)) ws
    have := specMaxPB_nonneg (pyLower path) (pyLower (basename path)) ws
    linarith
  · rw [hchar]
    have := specMaxFB_le (pyLower (basename path)) ws
    have := specMaxPB_le (pyLower path) (pyLower (basename path)) ws
    linarith

/-! ## Cosine similarity — `shared.cosine_similarity`

```python
def cosine_similarity(query_vec, target_vecs):
    dot_product = np.dot(target_vecs, query_vec)
    norms = np.linalg.norm(target_vecs, axis=1) * np.linalg.norm(query_vec)
    norms = np.maximum(norms, 1e-10)
    return dot_product / norms
```

Modelled over the reals (exact arithmetic standing in for IEEE floats): a matrix is
a list of row vectors, `np.dot(M, v)` is the list of row dot products,
`np.linalg.norm` is the Euclidean norm, and the elementwise `np.maximum`/division
become per-row `max` and division. -/

noncomputable def dotR (v w : List ℝ) : ℝ := (List.zipWith (fun a b => a * b) v w).sum

noncomputable def normR (v : List ℝ) : ℝ := Real.sqrt ((v.map (fun a => a ^ 2)).sum)

/-- The per-row denominator after the `np.maximum(norms, 1e-10)` floor. -/
noncomputable def cosineDenom (t q : List ℝ) : ℝ := max (normR t * normR q) (1 / 10 ^ 10)

noncomputable def cosine_similarity (query_vec : List ℝ) (target_vecs : List (List ℝ)) :
    List ℝ :=
  target_vecs.map (fun t => dotR t query_vec / cosineDenom t query_vec)

/-- **C9**: `cosine_similarity` is total on every input: each row's denominator is
floored at `1e-10` before dividing, so it is never zero — in particular for an
all-zero target row and/or an all-zero query vector, whose norms are `0`, the
denominator is exactly `1e-10` — and every returned score is the (finite) real
`dot / denom`. -/
theorem cosine_similarity_total :
    (∀ t q : List ℝ, (1 : ℝ) / 10 ^ 10 ≤ cosineDenom t q ∧ cosineDenom t q ≠ 0) ∧
    (∀ (q : List ℝ) (ts : List (List ℝ)),
      cosine_similarity q ts = ts.map (fun t => dotR t q / cosineDenom t q)) ∧
    (∀ (n : Nat) (q : List ℝ), cosineDenom (List.replicate n 0) q = 1 / 10 ^ 10) := by
  have heps : (0 : ℝ) < 1 / 10 ^ 10 := by positivity
  refine ⟨fun t q => ⟨le_max_right _ _, ?_⟩, fun q ts => rfl, fun n q => ?_⟩
  · exact ne_of_gt (lt_of_lt_of_le heps (le_max_right _ _))
  · have hz : normR (List.replicate n (0 : ℝ)) = 0 := by
      simp [normR, List.map_replicate]
    rw [cosineDenom, hz, zero_mul, max_eq_right heps.le]

/-! ## Cache names — `client.get_cache_name_for_path`

```python
def get_cache_name_for_path(dir_path):
    normalized = os.path.normpath(os.path.abspath(dir_path))
    safe_name = normalized.replace("\\", "_").replace("/", "_").replace(":", "").strip("_")
    return f"autoscan_{safe_name[:100]}"
```

`os.path.normpath` / `os.path.abspath` / `os.path.join` are the posix versions
(CPython `posixpath.py`); `abspath` takes the process working directory as an
explicit parameter, since for relative inputs Python reads it from the process. -/

def isAbs (p : String) : Bool := p.toList.take 1 = ['/']

/-- `posixpath.join(a, b)` for two components. -/
def pyJoin (a b : String) : String :=
  if isAbs b then b
  else if a = "" ∨ a.toList.getLast? = some '/' then a ++ b
  else a ++ "/" ++ b

/-- The component-processing fold inside `posixpath.normpath`. -/
def normpathComps (initialSlashes : Nat) (comps : List (List Char)) : List (List Char) :=
  comps.foldl (fun acc comp =>
    if comp = [] ∨ comp = ['.'] then acc
    else if comp ≠ ['.', '.'] ∨ (initialSlashes = 0 ∧ acc = []) ∨
        acc.getLast? = some ['.', '.'] then acc ++ [comp]
    else acc.dropLast) []

/-- The number of leading slashes `posixpath.normpath` preserves (1, or 2 for the
POSIX double-slash special case). -/
def pyInitialSlashes (cs : List Char) : Nat :=
  if cs.take 1 = ['/'] then
    if cs.take 2 = ['/', '/'] ∧ cs.take 3 ≠ ['/', '/', '/'] then 2 else 1
  else 0

/-- The character list `posixpath.normpath` rebuilds before the final `or '.'`. -/
def pyNormRes (cs : List Char) : List Char :=
  List.replicate (pyInitialSlashes cs) '/' ++
    List.intercalate ['/'] (normpathComps (pyInitialSlashes cs) (cs.splitOn '/'))

/-- `posixpath.normpath`. -/
def normpath (p : String) : String :=
  if p.toList = [] then "."
  else if pyNormRes p.toList = [] then "."
  else String.mk (pyNormRes p.toList)

/-- `posixpath.abspath`, with the process working directory `cwd` explicit. -/
def abspath (cwd p : String) : String :=
  if isAbs p then normpath p else normpath (pyJoin cwd p)

/-- The sanitisation pipeline applied to the normalised path:
`.replace("\\", "_").replace("/", "_").replace(":", "").strip("_")`, then `[:100]`. -/
def sanitizeName (normalized : String) : List Char :=
  (stripUnderscores
    (((normalized.toList.map (fun c => if c = '\\' then '_' else c)).map
        (fun c => if c = '/' then '_' else c)).filter (fun c => ¬ c = ':'))).take 100
where
  stripUnderscores (l : List Char) : List Char :=
    ((l.dropWhile (fun c => c = '_')).reverse.dropWhile (fun c => c = '_')).reverse

def get_cache_name_for_path (cwd dir_path : String) : String :=
  String.mk ("autoscan_".toList ++ sanitizeName (normpath (abspath cwd dir_path)))

/-- **C8** (counterexample): the two absolute, normalised directory paths `/a/b` and
`/a_b` are distinct yet receive the same cache name `autoscan_a_b`, because the
sanitisation maps the separator `/` to `_`.  The mapping is therefore not injective
on distinct absolute normalised paths. -/
theorem get_cache_name_collision :
    get_cache_name_for_path "/" "/a/b" = get_cache_name_for_path "/" "/a_b" ∧
    "/a/b" ≠ "/a_b" ∧ isAbs "/a/b" = true ∧ isAbs "/a_b" = true ∧
    normpath "/a/b" = "/a/b" ∧ normpath "/a_b" = "/a_b" := by
  refine ⟨by decide, by decide, by decide, by decide, by decide, by decide⟩

/-- **C8** (amended): the mapping is deterministic — for an absolute input path the
name does not depend on the process working directory (and the function is pure, so
two applications at any two times agree) — but it is *not* injective: two inputs
collide exactly when their sanitised, 100-character-truncated forms coincide (which
`get_cache_name_collision` shows does happen for distinct absolute normalised
paths). -/
theorem get_cache_name_deterministic (cwd cwd' p : String) (h : isAbs p = true) :
    get_cache_name_for_path cwd p = get_cache_name_for_path cwd' p ∧
    (∀ q : String, get_cache_name_for_path cwd p = get_cache_name_for_path cwd q ↔
      sanitizeName (normpath (abspath cwd p)) = sanitizeName (normpath (abspath cwd q))) := by
  constructor
  · simp [get_cache_name_for_path, abspath, h]
  · intro q
    constructor
    · intro h2
      have h3 := congrArg String.data h2
      exact List.append_cancel_left h3
    · intro h2
      rw [get_cache_name_for_path, get_cache_name_for_path, h2]

/-- Witness for `get_cache_name_deterministic` at the absolute path `/x` and two
different working directories. -/
theorem get_cache_name_deterministic_witness :
    isAbs "/x" = true ∧
      get_cache_name_for_path "/c" "/x" = get_cache_name_for_path "/d" "/x" :=
  ⟨by decide, (get_cache_name_deterministic "/c" "/d" "/x" (by decide)).1⟩

/-! ## JSON — interface model of the stdlib `json` module

`json.loads` is external library code; it is modelled by a standard
recursive-descent parser over characters producing a JSON value (numbers as exact
rationals without exponent notation, strings with the usual escapes).  `none` is a
`json.JSONDecodeError`.  An object literal keeps its fields in order; lookups take
the last binding of a key, as `dict` construction does. -/

inductive Json where
  | null : Json
  | bool (b : Bool) : Json
  | num (q : ℚ) : Json
  | str (s : String) : Json
  | arr (xs : List Json) : Json
  | obj (fields : List (String × Json)) : Json

/-- JSON insignificant whitespace. -/
def skipWs (cs : List Char) : List Char :=
  cs.dropWhile (fun c => c = ' ' ∨ c = '\t' ∨ c = '\n' ∨ c = '\r')

def hexVal (c : Char) : Option Nat :=
  if '0' ≤ c ∧ c ≤ '9' then some (c.toNat - '0'.toNat)
  else if 'a' ≤ c ∧ c ≤ 'f' then some (c.toNat - 'a'.toNat + 10)
  else if 'A' ≤ c ∧ c ≤ 'F' then some (c.toNat - 'A'.toNat + 10)
  else none

def escChar (c : Char) : Option Char :=
  if c = '"' then some '"'
  else if c = '\\' then some '\\'
  else if c = '/' then some '/'
  else if c = 'n' then some '\n'
  else if c = 't' then some '\t'
  else if c = 'r' then some '\r'
  else if c = 'b' then some (Char.ofNat 8)
  else if c = 'f' then some (Char.ofNat 12)
  else none

/-- String-literal body (after the opening quote), fuel-indexed. -/
def psbGo : Nat → List Char → Option (List Char × List Char)
  | 0, _ => none
  | _ + 1, [] => none
  | fuel + 1, c :: rest =>
    if c = '"' then some ([], rest)
    else if c = '\\' then
      match rest with
      | [] => none
      | e :: rest2 =>
        if e = 'u' then
          match rest2 with
          | h1 :: h2 :: h3 :: h4 :: rest3 =>
            match hexVal h1, hexVal h2, hexVal h3, hexVal h4 with
            | some a, some b, some c2, some d =>
              (psbGo fuel rest3).map
                (fun p => (Char.ofNat (((a * 16 + b) * 16 + c2) * 16 + d) :: p.1, p.2))
            | _, _, _, _ => none
          | _ => none
        else
          match escChar e with
          | some ec => (psbGo fuel rest2).map (fun p => (ec :: p.1, p.2))
          | none => none
    else (psbGo fuel rest).map (fun p => (c :: p.1, p.2))

def parseStringBody (cs : List Char) : Option (List Char × List Char) :=
  psbGo (cs.length + 1) cs

def digitsToNat (ds : List Char) : Nat :=
  ds.foldl (fun n c => n * 10 + (c.toNat - '0'.toNat)) 0

/-- Number literal (optional sign, digits, optional fraction; exponents are not
modelled — no payload in this development uses them). -/
def parseNum (cs : List Char) : Option (Json × List Char) :=
  match cs with
  | '-' :: cs1 =>
    (parseNumCore cs1).map (fun p => (negNum p.1, p.2))
  | _ => parseNumCore cs
where
  negNum : Json → Json
    | Json.num q => Json.num (-q)
    | j => j
  parseNumCore (cs1 : List Char) : Option (Json × List Char) :=
    if cs1.takeWhile Char.isDigit = [] then none
    else
      match cs1.dropWhile Char.isDigit with
      | '.' :: r2 =>
        if r2.takeWhile Char.isDigit = [] then none
        else
          some (Json.num ((digitsToNat (cs1.takeWhile Char.isDigit) : ℚ) +
              (digitsToNat (r2.takeWhile Char.isDigit) : ℚ) /
                (10 : ℚ) ^ (r2.takeWhile Char.isDigit).length),
            r2.dropWhile Char.isDigit)
      | r1 => some (Json.num (digitsToNat (cs1.takeWhile Char.isDigit) : ℚ), r1)

mutual

def parseVal : Nat → List Char → Option (Json × List Char)
  | 0, _ => none
  | fuel + 1, cs =>
    match skipWs cs with
    | 'n' :: 'u' :: 'l' :: 'l' :: rest => some (Json.null, rest)
    | 't' :: 'r' :: 'u' :: 'e' :: rest => some (Json.bool true, rest)
    | 'f' :: 'a' :: 'l' :: 's' :: 'e' :: rest => some (Json.bool false, rest)
    | '"' :: rest => (parseStringBody rest).map (fun p => (Json.str (String.mk p.1), p.2))
    | '[' :: rest =>
      (match skipWs rest with
       | ']' :: rest2 => some (Json.arr [], rest2)
       | _ => (parseElems fuel (skipWs rest)).map (fun p => (Json.arr p.1, p.2)))
    | '\x7b' :: rest =>
      (match skipWs rest with
       | '\x7d' :: rest2 => some (Json.obj [], rest2)
       | _ => (parseMembers fuel (skipWs rest)).map (fun p => (Json.obj p.1, p.2)))
    | other => parseNum other

def parseMembers : Nat → List Char → Option (List (String × Json) × List Char)
  | 0, _ => none
  | fuel + 1, cs =>
    match skipWs cs with
    | '"' :: rest =>
      (match parseStringBody rest with
       | none => none
       | some (k, r1) =>
         match skipWs r1 with
         | ':' :: r2 =>
           (match parseVal fuel r2 with
            | none => none
            | some (v, r3) =>
              match skipWs r3 with
              | ',' :: r4 => (parseMembers fuel r4).map (fun p => ((String.mk k, v) :: p.1, p.2))
              | '\x7d' :: r4 => some ([(String.mk k, v)], r4)
              | _ => none)
         | _ => none)
    | _ => none

def parseElems : Nat → List Char → Option (List Json × List Char)
  | 0, _ => none
  | fuel + 1, cs =>
    match parseVal fuel cs with
    | none => none
    | some (v, r) =>
      match skipWs r with
      | ',' :: r2 => (parseElems fuel r2).map (fun p => (v :: p.1, p.2))
      | ']' :: r2 => some ([v], r2)
      | _ => none

end

/-- `json.loads`: a single JSON document with nothing but whitespace after it. -/
def parseJson (cs : List Char) : Option Json :=
  match parseVal (cs.length + 1) cs with
  | none => none
  | some (v, rest) => if skipWs rest = [] then some v else none

/-! ## The daemon's data model — `daemon.SearchDaemon`

An in-memory index is the pair of parallel arrays a `.npz` archive holds; note the
model deliberately does *not* tie the two lengths together, because `np.load`
performs no such validation.  Vectors are opaque to everything but the abstract
similarity function, which replaces `model.encode` + `cosine_similarity` (numpy
float kernels, modelled separately over ℝ); it is passed in explicitly wherever the
source calls them. -/

abbrev Vec := List ℚ

structure IndexData where
  paths : List String
  vectors : List Vec
deriving DecidableEq

/-- A search result record `{"path": ..., "score": ..., "index": ...}`. -/
structure SR where
  path : String
  score : ℚ
  idx : String
deriving DecidableEq

/-- Uncaught Python exceptions the request handler can raise (`IndexError` from a
paths/vectors length mismatch, `AttributeError`/`TypeError` from ill-typed request
fields).  None of these are in the `except (json.JSONDecodeError, KeyError,
ValueError)` clause of `SearchDaemon.run`, so raising one kills the daemon without
a reply. -/
inductive PyError where
  | indexError : PyError
  | attributeError : PyError
  | typeError : PyError
deriving DecidableEq

/-- The single reply object a connection may receive. -/
inductive Reply where
  | searchResults (rs : List SR) : Reply
  | errorMsg (msg : String) : Reply
  | parseError : Reply
  | statusOk : Reply
  | statusPong : Reply
  | statusStopping : Reply
deriving DecidableEq

/-- Everything observable about how the daemon handled one connection. -/
structure StepResult where
  replySent : Option Reply
  crashed : Option PyError
  indices : List (String × IndexData)
  running : Bool
deriving DecidableEq

def repliesOf (r : StepResult) : Nat := if r.replySent.isSome then 1 else 0

/-- Python truthiness of a JSON value. -/
def pyTruthy : Json → Bool
  | Json.null => false
  | Json.bool b => b
  | Json.num q => decide (q ≠ 0)
  | Json.str s => decide (s ≠ "")
  | Json.arr [] => false
  | Json.arr (_ :: _) => true
  | Json.obj [] => false
  | Json.obj (_ :: _) => true

/-- Python `len()`: defined on strings, lists and dicts, `TypeError` otherwise. -/
def pyLen : Json → Option Nat
  | Json.str s => some s.length
  | Json.arr xs => some xs.length
  | Json.obj fs => some fs.length
  | _ => none

/-- `request.get(key)`: the last binding of a key, as `dict` construction keeps. -/
def objGet (fields : List (String × Json)) (k : String) : Option Json :=
  (fields.reverse.find? (fun kv => kv.1 == k)).map (fun kv => kv.2)

def MAX_QUERY_LENGTH : Nat := 10000

def DEFAULT_THRESHOLD : ℚ := mkRat 45 100

def queryTooLongMsg : String := "Query exceeds maximum length of 10000 chars"

/-- `effective_score >= threshold` where the threshold came from JSON:
comparisons against numbers and bools succeed (Python treats `True`/`False` as
`1`/`0`), anything else is a `TypeError`. -/
def pyGE (x : ℚ) : Json → Except PyError Bool
  | Json.num r => .ok (decide (r ≤ x))
  | Json.bool b => .ok (decide ((if b then (1 : ℚ) else 0) ≤ x))
  | _ => .error PyError.typeError

/-- `if not scope or scope.lower() in path.lower()`: a falsy scope passes every
record; a truthy string scope filters by case-insensitive containment; a truthy
non-string raises `AttributeError` at `.lower()`. -/
def pyScopeCheck (scope : Json) (path : String) : Except PyError Bool :=
  if pyTruthy scope then
    match scope with
    | Json.str s => .ok (strIn (pyLower s) (pyLower path))
    | _ => .error PyError.attributeError
  else .ok true

/-! ## `SearchDaemon.handle_search` and the client's local twin

```python
def handle_search(self, query, top_k=20, threshold=DEFAULT_THRESHOLD,
                  scope=None, target_index=None, hybrid=False):
    query_vec = self.model.encode(query)
    all_results = []
    query_words = query.lower().split() if hybrid else []
    to_search = self.indices.items()
    if target_index and target_index.lower() != "all" and target_index in self.indices:
        to_search = [(target_index, self.indices[target_index])]
    for label, data in to_search:
        paths = data["paths"]
        vectors = data["vectors"]
        scores = cosine_similarity(query_vec, vectors)
        for i, score in enumerate(scores):
            path = str(paths[i])
            effective_score = float(score)
            if hybrid:
                effective_score = min(1.0, effective_score + hybrid_boost(path, query_words))
            if effective_score >= threshold:
                if not scope or scope.lower() in path.lower():
                    all_results.append({"path": path, "score": effective_score, "index": label})
    all_results.sort(key=lambda x: x["score"], reverse=True)
    seen = set()
    unique = []
    for r in all_results:
        if r["path"] not in seen:
            unique.append(r)
            seen.add(r["path"])
        if len(unique) >= top_k:
            break
    return unique
```

`client.search_indexed_files` duplicates the same scoring loop, sort and
deduplication verbatim (typed `threshold`/`scope` arguments from the CLI), with one
difference in error handling: each index's body runs inside `try/except Exception`,
so a crash skips the rest of *that* index but keeps the records appended before the
crash and moves on to the next index, whereas in the daemon the exception
propagates.  The shared pieces are therefore factored into `scoreRecords`,
`sortByScore` and `dedupeLoop`, used by both embeddings. -/

def lookupIndex (indices : List (String × IndexData)) (t : String) : Option IndexData :=
  (indices.find? (fun p => p.1 == t)).map (fun p => p.2)

/-- `to_search`: all indices unless a truthy, non-`"all"` name that is loaded is
given; a truthy non-string `index` field raises at `.lower()`. -/
def selectIndices (indices : List (String × IndexData)) :
    Json → Except PyError (List (String × IndexData))
  | Json.str t =>
    if t = "" then .ok indices
    else if pyLower t = "all" then .ok indices
    else
      match lookupIndex indices t with
      | some d => .ok [(t, d)]
      | none => .ok indices
  | j => if pyTruthy j then .error PyError.attributeError else .ok indices

/-- `effective_score`: the raw cosine score, plus the clamped hybrid boost when
hybrid mode is on. -/
def effScore (query_words : List String) (hybrid : Bool) (path : String) (score : ℚ) : ℚ :=
  if hybrid then min 1 (score + hybrid_boost path query_words) else score

/-- The two record filters in order: `effective_score >= threshold`, then the
scope check — short-circuited exactly as the nested `if`s are. -/
def recordKeep (query_words : List String) (hybrid : Bool) (threshold scope : Json)
    (path : String) (score : ℚ) : Except PyError Bool :=
  match pyGE (effScore query_words hybrid path score) threshold with
  | .error e => .error e
  | .ok ge => if ge then pyScopeCheck scope path else .ok false

/-- The inner `for i, score in enumerate(scores)` loop over one index, returning
the records appended before any uncaught exception, and the exception if one was
raised (`paths[i]` out of range, ill-typed threshold or scope). -/
def scoreRecords (label : String) (paths : List String) (query_words : List String)
    (hybrid : Bool) (threshold scope : Json) :
    List ℚ → Nat → List SR × Option PyError
  | [], _ => ([], none)
  | score :: rest, i =>
    match paths[i]? with
    | none => ([], some PyError.indexError)
    | some path =>
      match recordKeep query_words hybrid threshold scope path score with
      | .error e => ([], some e)
      | .ok keep =>
        match scoreRecords label paths query_words hybrid threshold scope rest (i + 1) with
        | (tail, err) =>
          ((if keep then [⟨path, effScore query_words hybrid path score, label⟩] else [])
            ++ tail, err)

/-- The outer `for label, data in to_search` loop, daemon flavour: stop at the
first uncaught exception (already-collected records are reported alongside it; the
daemon discards them, the client keeps them). -/
def gatherAll (sim : Vec → List Vec → List ℚ) (qv : Vec) (query_words : List String)
    (hybrid : Bool) (threshold scope : Json) :
    List (String × IndexData) → List SR × Option PyError
  | [] => ([], none)
  | (label, d) :: rest =>
    match scoreRecords label d.paths query_words hybrid threshold scope (sim qv d.vectors) 0 with
    | (rs, some e) => (rs, some e)
    | (rs, none) =>
      match gatherAll sim qv query_words hybrid threshold scope rest with
      | (rs2, err2) => (rs ++ rs2, err2)

/-- Descending-score order used by `all_results.sort(key=..., reverse=True)`. -/
def scoreGE (a b : SR) : Prop := b.score ≤ a.score

instance : DecidableRel scoreGE := fun a b => inferInstanceAs (Decidable (b.score ≤ a.score))

instance : IsTotal SR scoreGE := ⟨fun a b => le_total b.score a.score⟩

instance : IsTrans SR scoreGE := ⟨fun _ _ _ h1 h2 => le_trans h2 h1⟩

/-- Python's stable sort, descending by score (a stable sort of a list under a
total preorder is unique, so insertion sort produces exactly Timsort's output). -/
def sortByScore (rs : List SR) : List SR := List.insertionSort scoreGE rs

/-- The dedup-and-truncate loop: keep the first occurrence of each path, breaking
as soon as `unique` has at least `top_k` entries (checked *after* a possible
append, which is why `top_k = 0` still lets one record through). -/
def dedupeLoop (topK : Nat) : List SR → List String → List SR → List SR
  | [], _, unique => unique
  | r :: rest, seen, unique =>
    if r.path ∈ seen then
      if topK ≤ unique.length then unique else dedupeLoop topK rest seen unique
    else
      if topK ≤ (unique ++ [r]).length then unique ++ [r]
      else dedupeLoop topK rest (r.path :: seen) (unique ++ [r])

def finalize (topK : Nat) (rs : List SR) : List SR :=
  dedupeLoop topK (sortByScore rs) [] []

/-- `SearchDaemon.handle_search`.  `encode`/`sim` are the abstract embedding and
similarity capabilities; a raised exception propagates to the caller. -/
def handle_search (encode : String → Vec) (sim : Vec → List Vec → List ℚ)
    (indices : List (String × IndexData)) (query : String) (topK : Nat)
    (threshold scope targetIndex hybrid : Json) : Except PyError (List SR) :=
  match selectIndices indices targetIndex with
  | .error e => .error e
  | .ok to_search =>
    match gatherAll sim (encode query)
        (if pyTruthy hybrid then pySplitWs (pyLower query) else []) (pyTruthy hybrid)
        threshold scope to_search with
    | (_, some e) => .error e
    | (all_results, none) => .ok (finalize topK all_results)

/-- The candidate records `handle_search` feeds into sort + dedup (empty if index
selection itself raised). -/
def searchCandidates (encode : String → Vec) (sim : Vec → List Vec → List ℚ)
    (indices : List (String × IndexData)) (query : String)
    (threshold scope targetIndex hybrid : Json) : List SR :=
  match selectIndices indices targetIndex with
  | .error _ => []
  | .ok to_search =>
    (gatherAll sim (encode query)
      (if pyTruthy hybrid then pySplitWs (pyLower query) else []) (pyTruthy hybrid)
      threshold scope to_search).1

/-! ## `client.search_indexed_files`

Each element of `files` is one `(label, cache_path)` entry; `none` models a cache
path that does not exist or whose `np.load` raised (both skipped), `some data` a
loaded archive.  Per-index crashes are swallowed by the `except Exception` clause,
keeping the records already appended. -/

def clientCandidates (encode : String → Vec) (sim : Vec → List Vec → List ℚ)
    (files : List (String × Option IndexData)) (query : String)
    (threshold : ℚ) (scope : Option String) (hybrid : Bool) : List SR :=
  files.foldr (fun ld acc =>
    match ld.2 with
    | none => acc
    | some d =>
      (scoreRecords ld.1 d.paths (if hybrid then pySplitWs (pyLower query) else []) hybrid
        (Json.num threshold) (scope.elim Json.null Json.str)
        (sim (encode query) d.vectors) 0).1 ++ acc) []

def search_indexed_files (encode : String → Vec) (sim : Vec → List Vec → List ℚ)
    (files : List (String × Option IndexData)) (query : String) (topK : Nat)
    (threshold : ℚ) (scope : Option String) (hybrid : Bool) : List SR :=
  finalize topK (clientCandidates encode sim files query threshold scope hybrid)

/-! ## `SearchDaemon.reload_all_indices` and the per-connection loop body

```python
def reload_all_indices(self):
    new_indices = {}
    ... for each candidate archive (vault cache + central store):
        try:
            data = np.load(path, allow_pickle=False)
            new_indices[name] = {"paths": data["paths"], "vectors": data["vectors"]}
        except Exception as e:
            ...log and skip...
    self.indices = new_indices
```

`fs` is the filesystem's answer: for each archive name, `none` when `np.load`
raises (unreadable / missing arrays), `some data` otherwise.  No shape validation
of any kind is performed — a paths/vectors length mismatch loads fine. -/

def reload_all_indices (fs : List (String × Option IndexData)) :
    List (String × IndexData) :=
  fs.filterMap (fun nd => nd.2.map (fun d => (nd.1, d)))

/-- The dispatch on a parsed request object, lines 139-173 of `daemon.py`.
A non-object value crashes at `request.get` (`AttributeError`); an object with an
unknown or missing `command` falls through all branches and sends nothing; a
`search` whose `query` has no `len()` (number, boolean, null) crashes at
`len(query)` (`TypeError`).  A non-string query that *does* have a `len()` — a
list or an object — proceeds into `handle_search` in the source, where its fate
is decided by the numpy / sentence-transformers kernels outside this repository
(typically a shape-mismatch `ValueError`, which the `except` clause catches and
answers with an error reply; with no index loaded the scoring loop never runs and
a plain results reply comes back).  That path lies outside this model's
string-typed encoder abstraction, so the model returns a placeholder crash value
on it; no theorem in this development touches that branch.
`json.JSONDecodeError`, `KeyError` and `ValueError` are the only exceptions
caught. -/
def dispatchFields (encode : String → Vec) (sim : Vec → List Vec → List ℚ)
    (fs : List (String × Option IndexData)) (indices : List (String × IndexData))
    (fields : List (String × Json)) : StepResult :=
  match objGet fields "command" with
  | some (Json.str "search") =>
    (match pyLen ((objGet fields "query").getD (Json.str "")) with
     | none => ⟨none, some PyError.typeError, indices, true⟩
     | some n =>
       if MAX_QUERY_LENGTH < n then ⟨some (Reply.errorMsg queryTooLongMsg), none, indices, true⟩
       else
         match (objGet fields "query").getD (Json.str "") with
         | Json.str q =>
           (match handle_search encode sim indices q 20
               ((objGet fields "threshold").getD (Json.num DEFAULT_THRESHOLD))
               ((objGet fields "scope").getD Json.null)
               ((objGet fields "index").getD Json.null)
               ((objGet fields "hybrid").getD (Json.bool false)) with
            | .ok rs => ⟨some (Reply.searchResults rs), none, indices, true⟩
            | .error e => ⟨none, some e, indices, true⟩)
         | _ => ⟨none, some PyError.typeError, indices, true⟩)
  | some (Json.str "reload") => ⟨some Reply.statusOk, none, reload_all_indices fs, true⟩
  | some (Json.str "ping") => ⟨some Reply.statusPong, none, indices, true⟩
  | some (Json.str "stop") => ⟨some Reply.statusStopping, none, indices, false⟩
  | _ => ⟨none, none, indices, true⟩

def dispatchRequest (encode : String → Vec) (sim : Vec → List Vec → List ℚ)
    (fs : List (String × Option IndexData)) (indices : List (String × IndexData))
    (j : Json) : StepResult :=
  match j with
  | Json.obj fields => dispatchFields encode sim fs indices fields
  | _ => ⟨none, some PyError.attributeError, indices, true⟩

/-- Handling of one decoded request text: parse failure is caught and answered
with `{"error": str(e)}`. -/
def handleData (encode : String → Vec) (sim : Vec → List Vec → List ℚ)
    (fs : List (String × Option IndexData)) (indices : List (String × IndexData))
    (data : List Char) : StepResult :=
  match parseJson data with
  | none => ⟨some Reply.parseError, none, indices, true⟩
  | some j => dispatchRequest encode sim fs indices j

/-- One iteration of the accept loop for one connection, lines 130-173 of
`daemon.py`: a single `conn.recv(4096)` reads at most the first 4096 bytes of the
payload, an empty read is skipped without a reply, everything else is decoded and
handled. -/
def daemonStep (encode : String → Vec) (sim : Vec → List Vec → List ℚ)
    (fs : List (String × Option IndexData)) (indices : List (String × IndexData))
    (payload : List Char) : StepResult :=
  if payload.take 4096 = [] then ⟨none, none, indices, true⟩
  else handleData encode sim fs indices (payload.take 4096)

/-! ## Concrete capability instantiations used by closed theorems -/

deriving instance DecidableEq for Except

/-- A trivial embedding capability (the claims below never depend on its values). -/
def encode0 : String → Vec := fun _ => []

/-- A similarity capability scoring every row `1` (one score per matrix row, as
`cosine_similarity` produces). -/
def simOnes : Vec → List Vec → List ℚ := fun _ vs => vs.map (fun _ => 1)

/-- A persisted index whose `paths` (length 1) and `vectors` (2 rows) disagree. -/
def mismatchedIndex : IndexData := ⟨["a"], [[1], [1]]⟩

/-- A well-formed one-record index. -/
def vaultData : IndexData := ⟨["p"], [[1]]⟩

def searchReqQ : String := "\x7b\"command\": \"search\", \"query\": \"q\"\x7d"

/-- **C1**: the loaders perform no paths/vectors length validation, so a persisted
index with 1 path and 2 vector rows is *loaded, not skipped*, by
`reload_all_indices`; the daemon's next search over that state raises `IndexError`
at `paths[1]` — an exception `SearchDaemon.run` does not catch — and the
connection gets no reply (in the real process the exception then kills the accept
loop).  This contradicts the spec's cache-file invariant, which demands that a
length-mismatched archive be treated as corrupt and skipped without crashing. -/
theorem mismatched_index_crashes_daemon :
    reload_all_indices [("bad", some mismatchedIndex)] = [("bad", mismatchedIndex)] ∧
    daemonStep encode0 simOnes [] (reload_all_indices [("bad", some mismatchedIndex)])
        searchReqQ.toList =
      ⟨none, some PyError.indexError, [("bad", mismatchedIndex)], true⟩ := by
  exact ⟨rfl, by decide⟩

/-- **C2** (counterexample): with one loaded index `vault` holding a record that
scores above the threshold, a search naming the *unloaded* index `missing` returns
that record — the daemon searched everything, not the claimed empty selection. -/
theorem missing_index_searches_all :
    handle_search encode0 simOnes [("vault", vaultData)] "q" 20
        (Json.num DEFAULT_THRESHOLD) Json.null (Json.str "missing") (Json.bool false) =
      Except.ok [⟨"p", 1, "vault"⟩] := by
  decide

lemma selectIndices_str (indices : List (String × IndexData)) (t : String) :
    selectIndices indices (Json.str t) =
      (if t = "" then Except.ok indices
       else if pyLower t = "all" then Except.ok indices
       else
         match lookupIndex indices t with
         | some d => Except.ok [(t, d)]
         | none => Except.ok indices) := rfl

/-- `handle_search` only looks at the index mapping through `selectIndices`. -/
lemma handle_search_eq_of_select (encode : String → Vec) (sim : Vec → List Vec → List ℚ)
    (ind1 ind2 : List (String × IndexData)) (q : String) (topK : Nat)
    (th scope : Json) (tgt1 tgt2 hyb : Json)
    (h : selectIndices ind1 tgt1 = selectIndices ind2 tgt2) :
    handle_search encode sim ind1 q topK th scope tgt1 hyb =
      handle_search encode sim ind2 q topK th scope tgt2 hyb := by
  unfold handle_search
  rw [h]

/-- **C2** (amended): for a non-empty `index` field that is not the sentinel
`"all"`: if it names a loaded index the daemon searches only that one (the search
over the full mapping equals the search over just that index), and if it names
nothing loaded the daemon falls back to searching *all* loaded indices (the search
behaves exactly as if no index had been named). -/
theorem target_index_selection (encode : String → Vec) (sim : Vec → List Vec → List ℚ)
    (indices : List (String × IndexData)) (q : String) (topK : Nat)
    (th scope hyb : Json) (t : String)
    (hne : t ≠ "") (hall : pyLower t ≠ "all") :
    (∀ d, lookupIndex indices t = some d →
      handle_search encode sim indices q topK th scope (Json.str t) hyb =
        handle_search encode sim [(t, d)] q topK th scope (Json.str t) hyb) ∧
    (lookupIndex indices t = none →
      handle_search encode sim indices q topK th scope (Json.str t) hyb =
        handle_search encode sim indices q topK th scope Json.null hyb) := by
  constructor
  · intro d hd
    apply handle_search_eq_of_select
    have hd1 : lookupIndex [(t, d)] t = some d := by
      simp [lookupIndex, List.find?]
    simp only [selectIndices_str, if_neg hne, if_neg hall, hd, hd1]
  · intro hd
    apply handle_search_eq_of_select
    simp only [selectIndices_str, if_neg hne, if_neg hall, hd]
    rfl

/-- Witness for `target_index_selection`, exercising both halves at concrete
states: the loaded name `vault` selects exactly that index, and the unloaded name
`missing` behaves like an unnamed search. -/
theorem target_index_selection_witness :
    ("vault" : String) ≠ "" ∧ pyLower "vault" ≠ "all" ∧
    ("missing" : String) ≠ "" ∧ pyLower "missing" ≠ "all" ∧
    lookupIndex [("vault", vaultData)] "vault" = some vaultData ∧
    lookupIndex [("vault", vaultData)] "missing" = none ∧
    (handle_search encode0 simOnes [("vault", vaultData)] "q" 20
        (Json.num DEFAULT_THRESHOLD) Json.null (Json.str "vault") (Json.bool false) =
      handle_search encode0 simOnes [("vault", vaultData)] "q" 20
        (Json.num DEFAULT_THRESHOLD) Json.null (Json.str "vault") (Json.bool false)) ∧
    (handle_search encode0 simOnes [("vault", vaultData)] "q" 20
        (Json.num DEFAULT_THRESHOLD) Json.null (Json.str "missing") (Json.bool false) =
      handle_search encode0 simOnes [("vault", vaultData)] "q" 20
        (Json.num DEFAULT_THRESHOLD) Json.null Json.null (Json.bool false)) := by
  refine ⟨by decide, by decide, by decide, by decide, by decide, by decide, ?_, ?_⟩
  · exact (target_index_selection encode0 simOnes [("vault", vaultData)] "q" 20
      (Json.num DEFAULT_THRESHOLD) Json.null (Json.bool false) "vault"
      (by decide) (by decide)).1 vaultData (by decide)
  · exact (target_index_selection encode0 simOnes [("vault", vaultData)] "q" 20
      (Json.num DEFAULT_THRESHOLD) Json.null (Json.bool false) "missing"
      (by decide) (by decide)).2 (by decide)

/-- **C5**: a `search` request whose `query` string exceeds `MAX_QUERY_LENGTH =
10000` characters is answered with the structured error object before anything
else happens: the result does not depend on the embedding/similarity capabilities
(they are never invoked — `encode` and `sim` are arbitrary here and absent from
the right-hand side), and the loaded index mapping and running flag are returned
unchanged. -/
theorem long_query_rejected (encode : String → Vec) (sim : Vec → List Vec → List ℚ)
    (fs : List (String × Option IndexData)) (indices : List (String × IndexData))
    (fields : List (String × Json)) (q : String)
    (hcmd : objGet fields "command" = some (Json.str "search"))
    (hq : objGet fields "query" = some (Json.str q))
    (hlen : MAX_QUERY_LENGTH < q.length) :
    dispatchRequest encode sim fs indices (Json.obj fields) =
      ⟨some (Reply.errorMsg queryTooLongMsg), none, indices, true⟩ := by
  show dispatchFields encode sim fs indices fields = _
  unfold dispatchFields
  rw [hcmd, hq]
  simp [pyLen, hlen]

/-- A 10001-character query. -/
def longQuery : String := String.mk (List.replicate 10001 'a')

/-- Witness for `long_query_rejected` at a concrete over-long request. -/
theorem long_query_rejected_witness :
    objGet [("command", Json.str "search"), ("query", Json.str longQuery)]
        "command" = some (Json.str "search") ∧
    objGet [("command", Json.str "search"), ("query", Json.str longQuery)]
        "query" = some (Json.str longQuery) ∧
    MAX_QUERY_LENGTH < longQuery.length ∧
    dispatchRequest encode0 simOnes [] [("vault", vaultData)]
        (Json.obj [("command", Json.str "search"), ("query", Json.str longQuery)]) =
      ⟨some (Reply.errorMsg queryTooLongMsg), none, [("vault", vaultData)], true⟩ := by
  have h1 : objGet [("command", Json.str "search"), ("query", Json.str longQuery)]
      "command" = some (Json.str "search") := rfl
  have h2 : objGet [("command", Json.str "search"), ("query", Json.str longQuery)]
      "query" = some (Json.str longQuery) := rfl
  have h3 : MAX_QUERY_LENGTH < longQuery.length := by
    show MAX_QUERY_LENGTH < longQuery.data.length
    have hdata : longQuery.data = List.replicate 10001 'a' := rfl
    rw [hdata, List.length_replicate]
    decide
  exact ⟨h1, h2, h3,
    long_query_rejected encode0 simOnes [] [("vault", vaultData)] _ longQuery h1 h2 h3⟩

/-! ## C4 — one reply per connection

The claim "every non-empty request gets exactly one structured reply" is broken by
the `if`/`elif` chain having no `else`: a parsed object whose `command` is unknown
or absent matches no branch and *nothing* is sent.  `goodRequestB` captures a
region on which the one-reply guarantee provably holds.  The region is sufficient
but not necessary: a `search` whose `threshold` is a boolean lies outside it, yet
is still answered with one reply, because Python's `>=` compares a float with a
bool without complaint. -/

/-- The shapes of `index`/`scope` values the search path handles without raising:
absent, `null`, or a string. -/
def wellTypedField : Option Json → Bool
  | none => true
  | some Json.null => true
  | some (Json.str _) => true
  | some _ => false

/-- A `search` request object whose optional fields have the types the handler
expects (string query, absent/null/string index and scope, numeric threshold). -/
def wellTypedSearch (fields : List (String × Json)) : Bool :=
  (match objGet fields "query" with
   | none => true
   | some (Json.str _) => true
   | _ => false) &&
  wellTypedField (objGet fields "index") &&
  wellTypedField (objGet fields "scope") &&
  (match objGet fields "threshold" with
   | none => true
   | some (Json.num _) => true
   | _ => false)

/-- The parse outcomes for which the daemon sends exactly one reply: a parse
failure (answered with the error object), or an object whose command is `reload`,
`ping`, `stop`, or a well-typed `search`. -/
def goodRequestB : Option Json → Bool
  | none => true
  | some (Json.obj fields) =>
    (match objGet fields "command" with
     | some (Json.str c) =>
       if c = "reload" ∨ c = "ping" ∨ c = "stop" then true
       else if c = "search" then wellTypedSearch fields
       else false
     | _ => false)
  | some _ => false

lemma pyScopeCheck_ok (scope : Json) (path : String)
    (h : scope = Json.null ∨ ∃ s, scope = Json.str s) :
    ∃ b, pyScopeCheck scope path = Except.ok b := by
  rcases h with h | ⟨s, h⟩ <;> subst h
  · exact ⟨true, rfl⟩
  · unfold pyScopeCheck
    split
    · exact ⟨_, rfl⟩
    · exact ⟨true, rfl⟩

lemma recordKeep_ok (qw : List String) (hyb : Bool) (r : ℚ) (scope : Json)
    (path : String) (score : ℚ)
    (hscope : scope = Json.null ∨ ∃ s, scope = Json.str s) :
    ∃ b, recordKeep qw hyb (Json.num r) scope path score = Except.ok b := by
  unfold recordKeep
  have hge : pyGE (effScore qw hyb path score) (Json.num r) =
      Except.ok (decide (r ≤ effScore qw hyb path score)) := rfl
  rw [hge]
  obtain ⟨b, hb⟩ := pyScopeCheck_ok scope path hscope
  rcases decide (r ≤ effScore qw hyb path score) with _ | _
  · exact ⟨false, rfl⟩
  · exact ⟨b, by simpa using hb⟩

lemma scoreRecords_ok (label : String) (paths : List String) (qw : List String)
    (hyb : Bool) (r : ℚ) (scope : Json)
    (hscope : scope = Json.null ∨ ∃ s, scope = Json.str s) :
    ∀ (scores : List ℚ) (i : Nat), i + scores.length ≤ paths.length →
      (scoreRecords label paths qw hyb (Json.num r) scope scores i).2 = none := by
  intro scores
  induction scores with
  | nil => intro i _; rfl
  | cons score rest ih =>
    intro i hlen
    have hi : i < paths.length := by simp at hlen; omega
    have hrec := ih (i + 1) (by simp at hlen ⊢; omega)
    unfold scoreRecords
    split
    · rename_i heq
      rw [List.getElem?_eq_getElem hi] at heq
      simp at heq
    · rename_i path heq
      obtain ⟨b, hb⟩ := recordKeep_ok qw hyb r scope path score hscope
      rw [hb]
      rcases hR : scoreRecords label paths qw hyb (Json.num r) scope rest (i + 1) with ⟨tail, err⟩
      rw [hR] at hrec
      have herr : err = none := hrec
      subst herr
      simp [hR]

lemma gatherAll_ok (sim : Vec → List Vec → List ℚ)
    (hsim : ∀ qv vs, (sim qv vs).length = vs.length)
    (qv : Vec) (qw : List String) (hyb : Bool) (r : ℚ) (scope : Json)
    (hscope : scope = Json.null ∨ ∃ s, scope = Json.str s) :
    ∀ idxs : List (String × IndexData),
      (∀ nd ∈ idxs, (nd.2 : IndexData).paths.length = nd.2.vectors.length) →
      (gatherAll sim qv qw hyb (Json.num r) scope idxs).2 = none := by
  intro idxs
  induction idxs with
  | nil => intro _; rfl
  | cons nd rest ih =>
    intro hwf
    rcases nd with ⟨label, d⟩
    have h1 : (scoreRecords label d.paths qw hyb (Json.num r) scope (sim qv d.vectors) 0).2
        = none := by
      apply scoreRecords_ok label d.paths qw hyb r scope hscope
      rw [hsim qv d.vectors]
      have := hwf (label, d) (by simp)
      simp at this
      omega
    unfold gatherAll
    rcases hS : scoreRecords label d.paths qw hyb (Json.num r) scope (sim qv d.vectors) 0
      with ⟨rs, err⟩
    rw [hS] at h1
    have herr : err = none := h1
    subst herr
    have h2 := ih (fun x hx => hwf x (List.mem_cons_of_mem _ hx))
    rcases hG : gatherAll sim qv qw hyb (Json.num r) scope rest with ⟨rs2, err2⟩
    rw [hG] at h2
    have herr2 : err2 = none := h2
    subst herr2
    simp [hS, hG]

lemma selectIndices_wf (P : IndexData → Prop) (indices : List (String × IndexData))
    (tgt : Json) (hwf : ∀ nd ∈ indices, P nd.2)
    (htgt : tgt = Json.null ∨ ∃ s, tgt = Json.str s) :
    ∃ sel, selectIndices indices tgt = Except.ok sel ∧ ∀ nd ∈ sel, P nd.2 := by
  rcases htgt with h | ⟨t, h⟩ <;> subst h
  · exact ⟨indices, rfl, hwf⟩
  · rw [selectIndices_str]
    split
    · exact ⟨indices, rfl, hwf⟩
    · split
      · exact ⟨indices, rfl, hwf⟩
      · rcases hL : lookupIndex indices t with _ | d
        · exact ⟨indices, rfl, hwf⟩
        · refine ⟨[(t, d)], rfl, ?_⟩
          intro nd hnd
          simp at hnd
          subst hnd
          unfold lookupIndex at hL
          rcases hF : indices.find? (fun p => p.1 == t) with _ | p
          · rw [hF] at hL; simp at hL
          · rw [hF] at hL
            simp at hL
            have hmem := List.mem_of_find?_eq_some hF
            have hP := hwf p hmem
            rw [← hL]
            exact hP

lemma handle_search_ok (encode : String → Vec) (sim : Vec → List Vec → List ℚ)
    (indices : List (String × IndexData)) (q : String) (topK : Nat)
    (th scope tgt hyb : Json)
    (hsim : ∀ qv vs, (sim qv vs).length = vs.length)
    (hwf : ∀ nd ∈ indices, (nd.2 : IndexData).paths.length = nd.2.vectors.length)
    (hth : ∃ r, th = Json.num r)
    (hscope : scope = Json.null ∨ ∃ s, scope = Json.str s)
    (htgt : tgt = Json.null ∨ ∃ s, tgt = Json.str s) :
    ∃ rs, handle_search encode sim indices q topK th scope tgt hyb = Except.ok rs := by
  obtain ⟨r, hr⟩ := hth
  subst hr
  obtain ⟨sel, hsel, hselwf⟩ := selectIndices_wf
    (fun d => d.paths.length = d.vectors.length) indices tgt hwf htgt
  unfold handle_search
  rw [hsel]
  have hg := gatherAll_ok sim hsim (encode q)
    (if pyTruthy hyb then pySplitWs (pyLower q) else []) (pyTruthy hyb) r scope hscope
    sel hselwf
  rcases hG : gatherAll sim (encode q)
      (if pyTruthy hyb then pySplitWs (pyLower q) else []) (pyTruthy hyb)
      (Json.num r) scope sel with ⟨rs, err⟩
  rw [hG] at hg
  have herr : err = none := hg
  subst herr
  exact ⟨finalize topK rs, by simp [hG]⟩

lemma dispatch_search_replies (encode : String → Vec) (sim : Vec → List Vec → List ℚ)
    (fs : List (String × Option IndexData)) (indices : List (String × IndexData))
    (fields : List (String × Json)) (q : String)
    (hc : objGet fields "command" = some (Json.str "search"))
    (hq : (objGet fields "query").getD (Json.str "") = Json.str q)
    (hidx : wellTypedField (objGet fields "index") = true)
    (hsc : wellTypedField (objGet fields "scope") = true)
    (hth : (match objGet fields "threshold" with
            | none => true
            | some (Json.num _) => true
            | _ => false) = true)
    (hwf : ∀ nd ∈ indices, (nd.2 : IndexData).paths.length = nd.2.vectors.length)
    (hsim : ∀ qv vs, (sim qv vs).length = vs.length) :
    repliesOf (dispatchFields encode sim fs indices fields) = 1 := by
  have hthv : ∃ r, (objGet fields "threshold").getD (Json.num DEFAULT_THRESHOLD) = Json.num r := by
    rcases hT : objGet fields "threshold" with _ | jt
    · exact ⟨DEFAULT_THRESHOLD, rfl⟩
    · rw [hT] at hth
      rcases jt with _ | b | r | st | xs | f2 <;> simp at hth
      exact ⟨r, rfl⟩
  have hscv : (objGet fields "scope").getD Json.null = Json.null ∨
      ∃ s, (objGet fields "scope").getD Json.null = Json.str s := by
    rcases hS : objGet fields "scope" with _ | js
    · exact Or.inl rfl
    · rw [hS] at hsc
      rcases js with _ | b | r | st | xs | f2 <;> simp [wellTypedField] at hsc
      · exact Or.inl rfl
      · exact Or.inr ⟨st, rfl⟩
  have hidxv : (objGet fields "index").getD Json.null = Json.null ∨
      ∃ s, (objGet fields "index").getD Json.null = Json.str s := by
    rcases hI : objGet fields "index" with _ | ji
    · exact Or.inl rfl
    · rw [hI] at hidx
      rcases ji with _ | b | r | st | xs | f2 <;> simp [wellTypedField] at hidx
      · exact Or.inl rfl
      · exact Or.inr ⟨st, rfl⟩
  obtain ⟨rs, hrs⟩ := handle_search_ok encode sim indices q 20
    ((objGet fields "threshold").getD (Json.num DEFAULT_THRESHOLD))
    ((objGet fields "scope").getD Json.null)
    ((objGet fields "index").getD Json.null)
    ((objGet fields "hybrid").getD (Json.bool false)) hsim hwf hthv hscv hidxv
  unfold dispatchFields
  rw [hc]
  by_cases hlen : MAX_QUERY_LENGTH < q.length
  · simp [hq, pyLen, hlen, repliesOf]
  · simp [hq, pyLen, hlen, hrs, repliesOf]

/-- A syntactically valid `search` request whose `threshold` is the boolean
`true` — outside `goodRequestB`'s numeric-threshold region. -/
def boolThresholdReq : List Char :=
  "\x7b\"command\": \"search\", \"query\": \"q\", \"threshold\": true\x7d".toList

/-- **C4** (amended): the daemon sends exactly one structured reply on every
connection whose (truncated) non-empty payload either fails to parse as JSON, or
parses to an object whose `command` is `reload`, `ping`, `stop`, or a well-typed
`search` over well-formed loaded indices.  The original universal claim fails:
an unknown or missing command sends nothing — see `unknown_command_no_reply`.
The well-typed region is sufficient but not necessary, as the second conjunct
shows: a `search` with a boolean `threshold` lies outside it, yet is still
answered with one (results) reply, since `effective_score >= True` compares
fine. -/
theorem one_reply_per_request (encode : String → Vec) (sim : Vec → List Vec → List ℚ)
    (fs : List (String × Option IndexData)) (indices : List (String × IndexData))
    (payload : List Char)
    (hne : payload.take 4096 ≠ [])
    (hgood : goodRequestB (parseJson (payload.take 4096)) = true)
    (hwf : ∀ nd ∈ indices, (nd.2 : IndexData).paths.length = nd.2.vectors.length)
    (hsim : ∀ qv vs, (sim qv vs).length = vs.length) :
    repliesOf (daemonStep encode sim fs indices payload) = 1 ∧
    (goodRequestB (parseJson (boolThresholdReq.take 4096)) = false ∧
     repliesOf (daemonStep encode0 simOnes [] [("vault", vaultData)]
        boolThresholdReq) = 1) := by
  refine ⟨?_, by decide, by decide⟩
  unfold daemonStep
  rw [if_neg hne]
  unfold handleData
  rcases hp : parseJson (payload.take 4096) with _ | j
  · rfl
  · rw [hp] at hgood
    rcases j with _ | b | qn | st | xs | fields <;> simp [goodRequestB] at hgood
    show repliesOf (dispatchFields encode sim fs indices fields) = 1
    rcases hc : objGet fields "command" with _ | jc
    · rw [hc] at hgood; simp at hgood
    · rw [hc] at hgood
      rcases jc with _ | b | qn | c | xs | f2 <;> simp at hgood
      by_cases h1 : c = "reload"
      · subst h1; unfold dispatchFields; rw [hc]; rfl
      by_cases h2 : c = "ping"
      · subst h2; unfold dispatchFields; rw [hc]; rfl
      by_cases h3 : c = "stop"
      · subst h3; unfold dispatchFields; rw [hc]; rfl
      by_cases h4 : c = "search"
      · subst h4
        have hwts : wellTypedSearch fields = true := by
          rcases hgood with (h | h | h) | ⟨_, h⟩
          · exact absurd h h1
          · exact absurd h h2
          · exact absurd h h3
          · exact h
        rw [wellTypedSearch] at hwts
        simp only [Bool.and_eq_true] at hwts
        obtain ⟨⟨⟨hq, hidx⟩, hsc⟩, hth⟩ := hwts
        have hqv : ∃ q0, (objGet fields "query").getD (Json.str "") = Json.str q0 := by
          rcases hQ : objGet fields "query" with _ | jq
          · exact ⟨"", rfl⟩
          · rw [hQ] at hq
            rcases jq with _ | b | r | st | ys | f3 <;> simp at hq
            exact ⟨st, rfl⟩
        obtain ⟨q0, hq0⟩ := hqv
        exact dispatch_search_replies encode sim fs indices fields q0 hc hq0 hidx hsc hth
          hwf hsim
      · simp [h1, h2, h3, h4] at hgood

/-- **C4** (counterexample): the non-empty request `{"command": "bogus"}` parses
fine but matches no command branch, so the daemon closes the connection without
sending anything — zero replies, not one. -/
theorem unknown_command_no_reply :
    repliesOf (daemonStep encode0 simOnes [] []
        "\x7b\"command\": \"bogus\"\x7d".toList) = 0 ∧
    (daemonStep encode0 simOnes [] [] "\x7b\"command\": \"bogus\"\x7d".toList).replySent
      = none ∧
    "\x7b\"command\": \"bogus\"\x7d".toList ≠ [] := by
  exact ⟨rfl, rfl, by decide⟩

/-- Witness for `one_reply_per_request` at the concrete request
`{"command": "ping"}` over the loaded index `vault`. -/
theorem one_reply_per_request_witness :
    ("\x7b\"command\": \"ping\"\x7d".toList.take 4096 ≠ []) ∧
    goodRequestB (parseJson ("\x7b\"command\": \"ping\"\x7d".toList.take 4096)) = true ∧
    repliesOf (daemonStep encode0 simOnes [] [("vault", vaultData)]
        "\x7b\"command\": \"ping\"\x7d".toList) = 1 := by
  refine ⟨by decide, by decide, ?_⟩
  exact (one_reply_per_request encode0 simOnes [] [("vault", vaultData)]
    "\x7b\"command\": \"ping\"\x7d".toList (by decide) (by decide)
    (by intro nd hnd; simp at hnd; rw [hnd]; rfl)
    (by intro qv vs; simp [simOnes])).1

/-! ## C6 — ranking, filtering, deduplication and top-k -/

lemma find?_append_of_none {α : Type} (p : α → Bool) {l1 : List α} (l2 : List α)
    (h : l1.find? p = none) : (l1 ++ l2).find? p = l2.find? p := by
  induction l1 with
  | nil => rfl
  | cons a l1 ih =>
    rw [List.find?_eq_none] at h
    have ha : ¬ p a = true := h a (by simp)
    rw [List.cons_append, List.find?_cons_of_neg _ ha,
      ih (List.find?_eq_none.mpr (fun x hx => h x (by simp [hx])))]

/-- Structure of the dedup loop's output: the accumulated prefix followed by a
sublist of the remaining input. -/
lemma dedupeSub (k : Nat) :
    ∀ (rs : List SR) (seen : List String) (u : List SR),
      ∃ sub, dedupeLoop k rs seen u = u ++ sub ∧ sub.Sublist rs := by
  intro rs
  induction rs with
  | nil => intro seen u; exact ⟨[], by simp [dedupeLoop]⟩
  | cons r rest ih =>
    intro seen u
    unfold dedupeLoop
    by_cases hmem : r.path ∈ seen
    · rw [if_pos hmem]
      by_cases hk : k ≤ u.length
      · rw [if_pos hk]; exact ⟨[], by simp⟩
      · rw [if_neg hk]
        obtain ⟨sub, h1, h2⟩ := ih seen u
        exact ⟨sub, h1, h2.cons r⟩
    · rw [if_neg hmem]
      by_cases hk : k ≤ (u ++ [r]).length
      · rw [if_pos hk]
        exact ⟨[r], by simp, by simp⟩
      · rw [if_neg hk]
        obtain ⟨sub, h1, h2⟩ := ih (r.path :: seen) (u ++ [r])
        exact ⟨r :: sub, by simp [h1], h2.cons₂ r⟩

/-- The dedup loop invariant: every output record is the *first* occurrence of its
path in the full (sorted) list, output paths are distinct, and the output length
is capped by `top_k` (provided the accumulator starts strictly below the cap). -/
lemma dedupeSpec (k : Nat) (full : List SR) :
    ∀ (rs : List SR) (seen : List String) (u : List SR) (processed : List SR),
      full = processed ++ rs →
      (∀ p : String, p ∈ seen ↔ p ∈ processed.map SR.path) →
      (∀ r ∈ u, full.find? (fun x => x.path == r.path) = some r) →
      (∀ r ∈ u, r.path ∈ seen) →
      ((u.map SR.path).Nodup) →
      u.length < k →
      (∀ r ∈ dedupeLoop k rs seen u,
        full.find? (fun x => x.path == r.path) = some r) ∧
      ((dedupeLoop k rs seen u).map SR.path).Nodup ∧
      (dedupeLoop k rs seen u).length ≤ k := by
  intro rs
  induction rs with
  | nil =>
    intro seen u processed hfull hseen hu huseen hnodup hlen
    exact ⟨hu, hnodup, le_of_lt hlen⟩
  | cons r rest ih =>
    intro seen u processed hfull hseen hu huseen hnodup hlen
    unfold dedupeLoop
    by_cases hmem : r.path ∈ seen
    · rw [if_pos hmem, if_neg (by omega)]
      refine ih seen u (processed ++ [r]) (by simp [hfull]) ?_ hu huseen hnodup hlen
      intro p
      rw [hseen p]
      simp only [List.map_append, List.mem_append, List.map_cons, List.map_nil,
        List.mem_singleton]
      constructor
      · exact fun h => Or.inl h
      · rintro (h | h)
        · exact h
        · rw [h, ← hseen]
          exact hmem
    · rw [if_neg hmem]
      have hnotin : ∀ x ∈ processed, ¬ ((fun y => y.path == r.path) x = true) := by
        intro x hx hxr
        simp only [beq_iff_eq] at hxr
        apply hmem
        rw [hseen, ← hxr]
        exact List.mem_map_of_mem SR.path hx
      have hfindr : full.find? (fun x => x.path == r.path) = some r := by
        rw [hfull, find?_append_of_none _ _ (List.find?_eq_none.mpr hnotin)]
        exact List.find?_cons_of_pos _ (by simp)
      have hu' : ∀ x ∈ u ++ [r], full.find? (fun y => y.path == x.path) = some x := by
        intro x hx
        rcases List.mem_append.mp hx with h | h
        · exact hu x h
        · simp only [List.mem_singleton] at h
          subst h
          exact hfindr
      have hrn : r.path ∉ u.map SR.path := by
        intro hmem2
        obtain ⟨x, hxu, hxp⟩ := List.mem_map.mp hmem2
        apply hmem
        rw [← hxp]
        exact huseen x hxu
      have hnodup' : ((u ++ [r]).map SR.path).Nodup := by
        rw [List.map_append]
        simp [List.nodup_append, hnodup, hrn]
      have huseen' : ∀ x ∈ u ++ [r], x.path ∈ r.path :: seen := by
        intro x hx
        rcases List.mem_append.mp hx with h | h
        · exact List.mem_cons_of_mem _ (huseen x h)
        · simp only [List.mem_singleton] at h
          subst h
          exact List.mem_cons_self _ _
      by_cases hk : k ≤ (u ++ [r]).length
      · rw [if_pos hk]
        refine ⟨hu', hnodup', ?_⟩
        simp only [List.length_append, List.length_singleton]
        omega
      · rw [if_neg hk]
        refine ih (r.path :: seen) (u ++ [r]) (processed ++ [r]) (by simp [hfull]) ?_
          hu' huseen' hnodup' (by simp only [List.length_append, List.length_singleton] at hk ⊢; omega)
        intro p
        simp only [List.mem_cons, List.map_append, List.mem_append, List.map_cons,
          List.map_nil, List.mem_singleton, List.mem_nil_iff, or_false]
        constructor
        · rintro (h | h)
          · exact Or.inr h
          · exact Or.inl ((hseen p).mp h)
        · rintro (h | h)
          · exact Or.inr ((hseen p).mpr h)
          · exact Or.inl h

lemma sorted_sortByScore (l : List SR) : List.Sorted scoreGE (sortByScore l) :=
  List.sorted_insertionSort scoreGE l

lemma mem_sortByScore {l : List SR} {x : SR} : x ∈ sortByScore l ↔ x ∈ l :=
  List.mem_insertionSort scoreGE

/-- Everything the ranking pipeline guarantees about `finalize`, for `top_k ≥ 1`:
the output is sorted descending, drawn from the candidates, consists of first
occurrences of pairwise-distinct paths in the sorted list, and has at most
`top_k` entries. -/
lemma finalize_spec (topK : Nat) (cands : List SR) (h : 1 ≤ topK) :
    List.Sorted scoreGE (finalize topK cands) ∧
    (∀ r ∈ finalize topK cands, r ∈ cands) ∧
    (∀ r ∈ finalize topK cands,
      (sortByScore cands).find? (fun x => x.path == r.path) = some r) ∧
    ((finalize topK cands).map SR.path).Nodup ∧
    (finalize topK cands).length ≤ topK := by
  obtain ⟨sub, hsub, hsl⟩ := dedupeSub topK (sortByScore cands) [] []
  have hspec := dedupeSpec topK (sortByScore cands) (sortByScore cands) [] []
    [] (by simp) (by simp) (by simp) (by simp) (by simp)
    (by simp only [List.length_nil]; omega)
  unfold finalize
  refine ⟨?_, ?_, hspec.1, hspec.2.1, hspec.2.2⟩
  · rw [hsub]
    simp only [List.nil_append]
    exact List.Pairwise.sublist hsl (sorted_sortByScore cands)
  · intro r hr
    rw [hsub] at hr
    simp only [List.nil_append] at hr
    exact mem_sortByScore.mp (hsl.subset hr)

lemma recordKeep_true_mem (qw : List String) (hyb : Bool) (th scope : Json)
    (path : String) (score : ℚ)
    (h : recordKeep qw hyb th scope path score = Except.ok true) :
    (∀ t, th = Json.num t → t ≤ effScore qw hyb path score) ∧
    (∀ s, scope = Json.str s → s ≠ "" → strIn (pyLower s) (pyLower path) = true) := by
  unfold recordKeep at h
  rcases hg : pyGE (effScore qw hyb path score) th with e | ge
  · rw [hg] at h; simp at h
  · rw [hg] at h
    rcases ge with _ | _
    · simp at h
    · simp only [if_true] at h
      constructor
      · intro t hth
        subst hth
        have he : pyGE (effScore qw hyb path score) (Json.num t)
            = Except.ok (decide (t ≤ effScore qw hyb path score)) := rfl
        rw [he] at hg
        simpa using hg
      · intro s hs hne
        subst hs
        unfold pyScopeCheck at h
        rw [if_pos (by simp [pyTruthy, hne])] at h
        simpa using h

lemma scoreRecords_mem (label : String) (paths : List String) (qw : List String)
    (hyb : Bool) (th scope : Json) :
    ∀ (scores : List ℚ) (i : Nat),
      ∀ r ∈ (scoreRecords label paths qw hyb th scope scores i).1,
        (∀ t, th = Json.num t → t ≤ r.score) ∧
        (∀ s, scope = Json.str s → s ≠ "" → strIn (pyLower s) (pyLower r.path) = true) := by
  intro scores
  induction scores with
  | nil => intro i r hr; simp [scoreRecords] at hr
  | cons score rest ih =>
    intro i r hr
    unfold scoreRecords at hr
    split at hr
    · simp at hr
    · rename_i path heq
      split at hr
      · simp at hr
      · rename_i keep hkeep
        rcases hR : scoreRecords label paths qw hyb th scope rest (i + 1) with ⟨tail, err⟩
        rw [hR] at hr
        have hr2 : r ∈ (if keep then [(⟨path, effScore qw hyb path score, label⟩ : SR)]
            else []) ++ tail := hr
        rcases List.mem_append.mp hr2 with hh | hh
        · rcases keep with _ | _
          · simp at hh
          · simp only [if_true, List.mem_singleton] at hh
            subst hh
            have hk := recordKeep_true_mem qw hyb th scope path score hkeep
            exact ⟨fun t ht => hk.1 t ht, fun s hs hne => hk.2 s hs hne⟩
        · have hmem : r ∈ (scoreRecords label paths qw hyb th scope rest (i + 1)).1 := by
            rw [hR]; exact hh
          exact ih (i + 1) r hmem

lemma gatherAll_mem (sim : Vec → List Vec → List ℚ) (qv : Vec) (qw : List String)
    (hyb : Bool) (th scope : Json) :
    ∀ idxs : List (String × IndexData),
      ∀ r ∈ (gatherAll sim qv qw hyb th scope idxs).1,
        (∀ t, th = Json.num t → t ≤ r.score) ∧
        (∀ s, scope = Json.str s → s ≠ "" → strIn (pyLower s) (pyLower r.path) = true) := by
  intro idxs
  induction idxs with
  | nil => intro r hr; simp [gatherAll] at hr
  | cons nd rest ih =>
    intro r hr
    rcases nd with ⟨label, d⟩
    unfold gatherAll at hr
    rcases hS : scoreRecords label d.paths qw hyb th scope (sim qv d.vectors) 0 with ⟨rs, err⟩
    rw [hS] at hr
    rcases err with _ | e
    · rcases hG : gatherAll sim qv qw hyb th scope rest with ⟨rs2, err2⟩
      rw [hG] at hr
      have hr2 : r ∈ rs ++ rs2 := hr
      rcases List.mem_append.mp hr2 with h | h
      · have hmem : r ∈ (scoreRecords label d.paths qw hyb th scope (sim qv d.vectors) 0).1 := by
          rw [hS]; exact h
        exact scoreRecords_mem label d.paths qw hyb th scope (sim qv d.vectors) 0 r hmem
      · have hmem : r ∈ (gatherAll sim qv qw hyb th scope rest).1 := by
          rw [hG]; exact h
        exact ih r hmem
    · have hr2 : r ∈ rs := hr
      have hmem : r ∈ (scoreRecords label d.paths qw hyb th scope (sim qv d.vectors) 0).1 := by
        rw [hS]; exact hr2
      exact scoreRecords_mem label d.paths qw hyb th scope (sim qv d.vectors) 0 r hmem

lemma searchCandidates_mem (encode : String → Vec) (sim : Vec → List Vec → List ℚ)
    (indices : List (String × IndexData)) (q : String) (th scope tgt hyb : Json) :
    ∀ r ∈ searchCandidates encode sim indices q th scope tgt hyb,
      (∀ t, th = Json.num t → t ≤ r.score) ∧
      (∀ s, scope = Json.str s → s ≠ "" → strIn (pyLower s) (pyLower r.path) = true) := by
  intro r hr
  unfold searchCandidates at hr
  rcases hsel : selectIndices indices tgt with e | sel
  · rw [hsel] at hr; simp at hr
  · rw [hsel] at hr
    have hr2 : r ∈ (gatherAll sim (encode q)
        (if pyTruthy hyb then pySplitWs (pyLower q) else []) (pyTruthy hyb)
        th scope sel).1 := hr
    exact gatherAll_mem sim _ _ _ th scope sel r hr2

lemma clientCandidates_mem (encode : String → Vec) (sim : Vec → List Vec → List ℚ)
    (q : String) (t : ℚ) (scope : Option String) (hyb : Bool) :
    ∀ (files : List (String × Option IndexData)),
      ∀ r ∈ clientCandidates encode sim files q t scope hyb,
        t ≤ r.score ∧
        (∀ s, scope = some s → s ≠ "" → strIn (pyLower s) (pyLower r.path) = true) := by
  intro files
  induction files with
  | nil => intro r hr; simp [clientCandidates] at hr
  | cons fd rest ih =>
    intro r hr
    rcases fd with ⟨label, od⟩
    unfold clientCandidates at hr
    rw [List.foldr_cons] at hr
    rcases od with _ | d
    · exact ih r hr
    · have hr2 : r ∈ (scoreRecords label d.paths
          (if hyb then pySplitWs (pyLower q) else []) hyb (Json.num t)
          (scope.elim Json.null Json.str) (sim (encode q) d.vectors) 0).1 ++
          clientCandidates encode sim rest q t scope hyb := hr
      rcases List.mem_append.mp hr2 with h | h
      · have h2 := scoreRecords_mem label d.paths
          (if hyb then pySplitWs (pyLower q) else []) hyb (Json.num t)
          (scope.elim Json.null Json.str) (sim (encode q) d.vectors) 0 r h
        refine ⟨h2.1 t rfl, ?_⟩
        intro s hs hne
        apply h2.2 s ?_ hne
        subst hs
        rfl
      · exact ih r h

lemma handle_search_ok_inv (encode : String → Vec) (sim : Vec → List Vec → List ℚ)
    (indices : List (String × IndexData)) (q : String) (topK : Nat)
    (th scope tgt hyb : Json) (out : List SR)
    (h : handle_search encode sim indices q topK th scope tgt hyb = Except.ok out) :
    out = finalize topK (searchCandidates encode sim indices q th scope tgt hyb) := by
  unfold handle_search at h
  rcases hsel : selectIndices indices tgt with e | sel
  · rw [hsel] at h; simp at h
  · rw [hsel] at h
    have h' : (match gatherAll sim (encode q)
        (if pyTruthy hyb then pySplitWs (pyLower q) else []) (pyTruthy hyb)
        th scope sel with
      | (_, some e) => (Except.error e : Except PyError (List SR))
      | (all_results, none) => Except.ok (finalize topK all_results)) = Except.ok out := h
    rcases hG : gatherAll sim (encode q)
        (if pyTruthy hyb then pySplitWs (pyLower q) else []) (pyTruthy hyb)
        th scope sel with ⟨rs, err⟩
    rw [hG] at h'
    have hsc : searchCandidates encode sim indices q th scope tgt hyb = rs := by
      unfold searchCandidates
      rw [hsel]
      show (gatherAll sim (encode q)
          (if pyTruthy hyb then pySplitWs (pyLower q) else []) (pyTruthy hyb)
          th scope sel).1 = rs
      rw [hG]
    rcases err with _ | e
    · have h2 : Except.ok (finalize topK rs) = Except.ok out := h'
      have h3 : finalize topK rs = out := by injection h2
      rw [hsc, h3]
    · have h2 : (Except.error e : Except PyError (List SR)) = Except.ok out := h'
      injection h2

/-- **C6** (amended, with `top_k ≥ 1`): every daemon search that returns and every
client local search produce a list that is sorted descending by score, contains
only records with effective score at least the (numeric) threshold, only records
whose path case-insensitively contains the scope whenever a non-empty scope
string is supplied, at most one record per distinct path — each being the first,
i.e. highest-scoring, occurrence of its path in the sorted candidate list — and
at most `top_k` records; and the dedup example `[(A,0.9),(B,0.8),(A,0.7)]`
yields `[(A,0.9),(B,0.8)]`.  For `top_k = 0` the length bound fails, see
`topk_zero_not_respected`. -/
theorem search_ranking_spec :
    (∀ (encode : String → Vec) (sim : Vec → List Vec → List ℚ)
        (indices : List (String × IndexData)) (q : String) (topK : Nat)
        (t : ℚ) (scope tgt hyb : Json) (out : List SR),
      1 ≤ topK →
      handle_search encode sim indices q topK (Json.num t) scope tgt hyb = Except.ok out →
      List.Sorted scoreGE out ∧
      (∀ r ∈ out, t ≤ r.score) ∧
      (∀ r ∈ out, ∀ s, scope = Json.str s → s ≠ "" →
        strIn (pyLower s) (pyLower r.path) = true) ∧
      ((out.map SR.path).Nodup) ∧
      (∀ r ∈ out, (sortByScore (searchCandidates encode sim indices q (Json.num t)
          scope tgt hyb)).find? (fun x => x.path == r.path) = some r) ∧
      out.length ≤ topK) ∧
    (∀ (encode : String → Vec) (sim : Vec → List Vec → List ℚ)
        (files : List (String × Option IndexData)) (q : String) (topK : Nat)
        (t : ℚ) (scope : Option String) (hyb : Bool),
      1 ≤ topK →
      List.Sorted scoreGE (search_indexed_files encode sim files q topK t scope hyb) ∧
      (∀ r ∈ search_indexed_files encode sim files q topK t scope hyb, t ≤ r.score) ∧
      (∀ r ∈ search_indexed_files encode sim files q topK t scope hyb,
        ∀ s, scope = some s → s ≠ "" → strIn (pyLower s) (pyLower r.path) = true) ∧
      (((search_indexed_files encode sim files q topK t scope hyb).map SR.path).Nodup) ∧
      (∀ r ∈ search_indexed_files encode sim files q topK t scope hyb,
        (sortByScore (clientCandidates encode sim files q t scope hyb)).find?
          (fun x => x.path == r.path) = some r) ∧
      (search_indexed_files encode sim files q topK t scope hyb).length ≤ topK) ∧
    finalize 20 [⟨"A", mkRat 9 10, "i"⟩, ⟨"B", mkRat 8 10, "i"⟩, ⟨"A", mkRat 7 10, "i"⟩]
      = [⟨"A", mkRat 9 10, "i"⟩, ⟨"B", mkRat 8 10, "i"⟩] := by
  refine ⟨?_, ?_, by decide⟩
  · intro encode sim indices q topK t scope tgt hyb out h1 h2
    have hinv := handle_search_ok_inv encode sim indices q topK (Json.num t)
      scope tgt hyb out h2
    subst hinv
    have hf := finalize_spec topK
      (searchCandidates encode sim indices q (Json.num t) scope tgt hyb) h1
    have hc := searchCandidates_mem encode sim indices q (Json.num t) scope tgt hyb
    exact ⟨hf.1,
      fun r hr => (hc r (hf.2.1 r hr)).1 t rfl,
      fun r hr s hs hne => (hc r (hf.2.1 r hr)).2 s hs hne,
      hf.2.2.2.1, hf.2.2.1, hf.2.2.2.2⟩
  · intro encode sim files q topK t scope hyb h1
    have hf := finalize_spec topK (clientCandidates encode sim files q t scope hyb) h1
    have hc := clientCandidates_mem encode sim q t scope hyb files
    exact ⟨hf.1,
      fun r hr => (hc r (hf.2.1 r hr)).1,
      fun r hr s hs hne => (hc r (hf.2.1 r hr)).2 s hs hne,
      hf.2.2.2.1, hf.2.2.1, hf.2.2.2.2⟩

/-- **C6** (counterexample): with `top_k = 0` the dedup loop checks the cap only
*after* appending, so one record still gets through: the returned list has length
1, which is not at most `top_k = 0`.  (Daemon and client share the loop; shown on
the client entry point.) -/
theorem topk_zero_not_respected :
    search_indexed_files encode0 simOnes [("i", some vaultData)] "q" 0 0 none false
      = [⟨"p", 1, "i"⟩] ∧
    ¬ (search_indexed_files encode0 simOnes [("i", some vaultData)] "q" 0 0 none
        false).length ≤ 0 := by
  exact ⟨by decide, by decide⟩

/-- Witness for `search_ranking_spec` at a concrete daemon search: one loaded
index, threshold 0, `top_k = 20`. -/
theorem search_ranking_spec_witness :
    ((1 : Nat) ≤ 20 ∧
      handle_search encode0 simOnes [("vault", vaultData)] "q" 20 (Json.num 0)
        Json.null Json.null (Json.bool false) = Except.ok [⟨"p", 1, "vault"⟩]) ∧
    (List.Sorted scoreGE [(⟨"p", 1, "vault"⟩ : SR)] ∧
      (∀ r ∈ [(⟨"p", 1, "vault"⟩ : SR)], (0 : ℚ) ≤ r.score) ∧
      [(⟨"p", 1, "vault"⟩ : SR)].length ≤ 20) := by
  have h2 : handle_search encode0 simOnes [("vault", vaultData)] "q" 20 (Json.num 0)
      Json.null Json.null (Json.bool false) = Except.ok [⟨"p", 1, "vault"⟩] := by decide
  have hc := search_ranking_spec.1 encode0 simOnes [("vault", vaultData)] "q" 20 0
    Json.null Json.null (Json.bool false) [⟨"p", 1, "vault"⟩] (by decide) h2
  exact ⟨⟨by decide, h2⟩, hc.1, hc.2.1, hc.2.2.2.2.2⟩

/-! ## C10 — single 4096-byte receive

The remainders a successful parse leaves behind are always drawn from the input:
these membership lemmas let us conclude that a successful object parse must have
seen a closing brace, hence a brace-free truncated prefix cannot parse. -/

lemma mem_skipWs {a : Char} {cs : List Char} (h : a ∈ skipWs cs) : a ∈ cs :=
  (List.dropWhile_sublist _).subset h

lemma psbGo_mem (a : Char) :
    ∀ (fuel : Nat) (cs s r : List Char), psbGo fuel cs = some (s, r) → a ∈ r → a ∈ cs := by
  intro fuel
  induction fuel with
  | zero => intro cs s r h; simp [psbGo] at h
  | succ n ih =>
    rintro (_ | ⟨c, rest⟩) s r h ha
    · simp [psbGo] at h
    · rw [psbGo.eq_def] at h
      simp only [] at h
      split at h
      · simp only [Option.some.injEq, Prod.mk.injEq] at h
        rw [← h.2] at ha
        exact List.mem_cons_of_mem _ ha
      · split at h
        · split at h
          · simp at h
          · split at h
            · split at h
              · split at h
                · obtain ⟨⟨s2, r2⟩, hp, hf⟩ := Option.map_eq_some'.mp h
                  simp only [Prod.mk.injEq] at hf
                  rw [← hf.2] at ha
                  have hm := ih _ s2 r2 hp ha
                  simp only [List.mem_cons]
                  tauto
                · simp at h
              · simp at h
            · split at h
              · obtain ⟨⟨s2, r2⟩, hp, hf⟩ := Option.map_eq_some'.mp h
                simp only [Prod.mk.injEq] at hf
                rw [← hf.2] at ha
                have hm := ih _ s2 r2 hp ha
                simp only [List.mem_cons]
                tauto
              · simp at h
        · obtain ⟨⟨s2, r2⟩, hp, hf⟩ := Option.map_eq_some'.mp h
          simp only [Prod.mk.injEq] at hf
          rw [← hf.2] at ha
          exact List.mem_cons_of_mem _ (ih rest s2 r2 hp ha)

lemma parseStringBody_mem (a : Char) (cs s r : List Char)
    (h : parseStringBody cs = some (s, r)) (ha : a ∈ r) : a ∈ cs :=
  psbGo_mem a (cs.length + 1) cs s r h ha

lemma parseNumCore_mem (a : Char) (cs1 : List Char) (v : Json) (r : List Char)
    (h : parseNum.parseNumCore cs1 = some (v, r)) (ha : a ∈ r) : a ∈ cs1 := by
  unfold parseNum.parseNumCore at h
  split at h
  · simp at h
  · split at h
    · split at h
      · simp at h
      · rename_i hta x r2 heq hne2
        simp only [Option.some.injEq, Prod.mk.injEq] at h
        rw [← h.2] at ha
        have h2 : a ∈ r2 := (List.dropWhile_sublist _).subset ha
        have h3 : a ∈ List.dropWhile Char.isDigit cs1 := by
          rw [heq]; exact List.mem_cons_of_mem _ h2
        exact (List.dropWhile_sublist _).subset h3
    · simp only [Option.some.injEq, Prod.mk.injEq] at h
      rw [← h.2] at ha
      exact (List.dropWhile_sublist _).subset ha

lemma parseNum_mem (a : Char) (cs : List Char) (v : Json) (r : List Char)
    (h : parseNum cs = some (v, r)) (ha : a ∈ r) : a ∈ cs := by
  unfold parseNum at h
  split at h
  · rename_i cs1
    obtain ⟨⟨v2, r2⟩, hp, hf⟩ := Option.map_eq_some'.mp h
    simp only [Prod.mk.injEq] at hf
    rw [← hf.2] at ha
    exact List.mem_cons_of_mem _ (parseNumCore_mem a cs1 v2 r2 hp ha)
  · exact parseNumCore_mem a cs v r h ha

lemma parserMem (a : Char) : ∀ fuel : Nat,
    (∀ cs v r, parseVal fuel cs = some (v, r) → a ∈ r → a ∈ cs) ∧
    (∀ cs kvs r, parseMembers fuel cs = some (kvs, r) → a ∈ r → a ∈ cs) ∧
    (∀ cs xs r, parseElems fuel cs = some (xs, r) → a ∈ r → a ∈ cs) := by
  intro fuel
  induction fuel with
  | zero =>
    refine ⟨?_, ?_, ?_⟩ <;> intro cs x r h <;>
      simp [parseVal, parseMembers, parseElems] at h
  | succ n ih =>
    obtain ⟨ihV, ihM, ihE⟩ := ih
    refine ⟨?_, ?_, ?_⟩
    · intro cs v r h ha
      rw [parseVal.eq_def] at h
      simp only [] at h
      split at h
      · rename_i rest heq
        simp only [Option.some.injEq, Prod.mk.injEq] at h
        rw [← h.2] at ha
        apply mem_skipWs; rw [heq]; simp only [List.mem_cons]; tauto
      · rename_i rest heq
        simp only [Option.some.injEq, Prod.mk.injEq] at h
        rw [← h.2] at ha
        apply mem_skipWs; rw [heq]; simp only [List.mem_cons]; tauto
      · rename_i rest heq
        simp only [Option.some.injEq, Prod.mk.injEq] at h
        rw [← h.2] at ha
        apply mem_skipWs; rw [heq]; simp only [List.mem_cons]; tauto
      · rename_i rest heq
        obtain ⟨⟨s2, r2⟩, hp, hf⟩ := Option.map_eq_some'.mp h
        simp only [Prod.mk.injEq] at hf
        rw [← hf.2] at ha
        have hm := parseStringBody_mem a rest s2 r2 hp ha
        apply mem_skipWs; rw [heq]; simp only [List.mem_cons]; tauto
      · rename_i rest heq
        split at h
        · rename_i rest2 heq2
          simp only [Option.some.injEq, Prod.mk.injEq] at h
          rw [← h.2] at ha
          have hm : a ∈ rest := mem_skipWs (by rw [heq2]; exact List.mem_cons_of_mem _ ha)
          apply mem_skipWs; rw [heq]; simp only [List.mem_cons]; tauto
        · obtain ⟨⟨s2, r2⟩, hp, hf⟩ := Option.map_eq_some'.mp h
          simp only [Prod.mk.injEq] at hf
          rw [← hf.2] at ha
          have hm : a ∈ rest := mem_skipWs (ihE _ s2 r2 hp ha)
          apply mem_skipWs; rw [heq]; simp only [List.mem_cons]; tauto
      · rename_i rest heq
        split at h
        · rename_i rest2 heq2
          simp only [Option.some.injEq, Prod.mk.injEq] at h
          rw [← h.2] at ha
          have hm : a ∈ rest := mem_skipWs (by rw [heq2]; exact List.mem_cons_of_mem _ ha)
          apply mem_skipWs; rw [heq]; simp only [List.mem_cons]; tauto
        · obtain ⟨⟨s2, r2⟩, hp, hf⟩ := Option.map_eq_some'.mp h
          simp only [Prod.mk.injEq] at hf
          rw [← hf.2] at ha
          have hm : a ∈ rest := mem_skipWs (ihM _ s2 r2 hp ha)
          apply mem_skipWs; rw [heq]; simp only [List.mem_cons]; tauto
      · exact mem_skipWs (parseNum_mem a _ v r h ha)
    · intro cs kvs r h ha
      rw [parseMembers.eq_def] at h
      simp only [] at h
      split at h
      · rename_i rest heq
        split at h
        · simp at h
        · rename_i k r1 hpsb
          split at h
          · rename_i r2 heq2
            split at h
            · simp at h
            · rename_i v r3 hpv
              split at h
              · rename_i r4 heq4
                obtain ⟨⟨s2, r5⟩, hp, hf⟩ := Option.map_eq_some'.mp h
                simp only [Prod.mk.injEq] at hf
                rw [← hf.2] at ha
                have h4 : a ∈ r4 := ihM _ s2 r5 hp ha
                have h3 : a ∈ r3 := mem_skipWs (by rw [heq4]; exact List.mem_cons_of_mem _ h4)
                have h2 : a ∈ r2 := ihV _ v r3 hpv h3
                have h1 : a ∈ r1 := mem_skipWs (by rw [heq2]; exact List.mem_cons_of_mem _ h2)
                have h0 : a ∈ rest := parseStringBody_mem a rest k r1 hpsb h1
                apply mem_skipWs; rw [heq]; exact List.mem_cons_of_mem _ h0
              · rename_i r4 heq4
                simp only [Option.some.injEq, Prod.mk.injEq] at h
                rw [← h.2] at ha
                have h3 : a ∈ r3 := mem_skipWs (by rw [heq4]; exact List.mem_cons_of_mem _ ha)
                have h2 : a ∈ r2 := ihV _ v r3 hpv h3
                have h1 : a ∈ r1 := mem_skipWs (by rw [heq2]; exact List.mem_cons_of_mem _ h2)
                have h0 : a ∈ rest := parseStringBody_mem a rest k r1 hpsb h1
                apply mem_skipWs; rw [heq]; exact List.mem_cons_of_mem _ h0
              · simp at h
          · simp at h
      · simp at h
    · intro cs xs r h ha
      rw [parseElems.eq_def] at h
      simp only [] at h
      split at h
      · simp at h
      · rename_i v r1 hpv
        split at h
        · rename_i r2 heq2
          obtain ⟨⟨s2, r3⟩, hp, hf⟩ := Option.map_eq_some'.mp h
          simp only [Prod.mk.injEq] at hf
          rw [← hf.2] at ha
          have h2 : a ∈ r2 := ihE _ s2 r3 hp ha
          have h1 : a ∈ r1 := mem_skipWs (by rw [heq2]; exact List.mem_cons_of_mem _ h2)
          exact ihV _ v r1 hpv h1
        · rename_i r2 heq2
          simp only [Option.some.injEq, Prod.mk.injEq] at h
          rw [← h.2] at ha
          have h1 : a ∈ r1 := mem_skipWs (by rw [heq2]; exact List.mem_cons_of_mem _ ha)
          exact ihV _ v r1 hpv h1
        · simp at h

lemma parseVal_mem (a : Char) (fuel : Nat) (cs : List Char) (v : Json) (r : List Char)
    (h : parseVal fuel cs = some (v, r)) (ha : a ∈ r) : a ∈ cs :=
  (parserMem a fuel).1 cs v r h ha

lemma parseMembers_brace : ∀ (fuel : Nat) (cs : List Char)
    (kvs : List (String × Json)) (r : List Char),
    parseMembers fuel cs = some (kvs, r) → '\x7d' ∈ cs := by
  intro fuel
  induction fuel with
  | zero => intro cs kvs r h; simp [parseMembers] at h
  | succ n ih =>
    intro cs kvs r h
    rw [parseMembers.eq_def] at h
    simp only [] at h
    split at h
    · rename_i rest heq
      split at h
      · simp at h
      · rename_i k r1 hpsb
        split at h
        · rename_i r2 heq2
          split at h
          · simp at h
          · rename_i v r3 hpv
            split at h
            · rename_i r4 heq4
              obtain ⟨⟨s2, r5⟩, hp, hf⟩ := Option.map_eq_some'.mp h
              have h4 : '\x7d' ∈ r4 := ih r4 s2 r5 hp
              have h3 : '\x7d' ∈ r3 := mem_skipWs (by rw [heq4]; exact List.mem_cons_of_mem _ h4)
              have h2 : '\x7d' ∈ r2 := parseVal_mem _ n r2 v r3 hpv h3
              have h1 : '\x7d' ∈ r1 := mem_skipWs (by rw [heq2]; exact List.mem_cons_of_mem _ h2)
              have h0 : '\x7d' ∈ rest := parseStringBody_mem _ rest k r1 hpsb h1
              apply mem_skipWs; rw [heq]; exact List.mem_cons_of_mem _ h0
            · rename_i r4 heq4
              have h3 : '\x7d' ∈ r3 := mem_skipWs (by rw [heq4]; exact List.mem_cons_self _ _)
              have h2 : '\x7d' ∈ r2 := parseVal_mem _ n r2 v r3 hpv h3
              have h1 : '\x7d' ∈ r1 := mem_skipWs (by rw [heq2]; exact List.mem_cons_of_mem _ h2)
              have h0 : '\x7d' ∈ rest := parseStringBody_mem _ rest k r1 hpsb h1
              apply mem_skipWs; rw [heq]; exact List.mem_cons_of_mem _ h0
            · simp at h
        · simp at h
    · simp at h

lemma parseVal_open_brace (fuel : Nat) (cs rest : List Char)
    (hsk : skipWs cs = '\x7b' :: rest) (hnb : '\x7d' ∉ cs) :
    parseVal fuel cs = none := by
  match fuel with
  | 0 => rw [parseVal]
  | n + 1 =>
    rw [parseVal.eq_def]
    simp only [hsk]
    split
    · rename_i rest2 heq2
      exfalso
      exact hnb (mem_skipWs (by
        rw [hsk]
        exact List.mem_cons_of_mem _ (mem_skipWs (by rw [heq2]; exact List.mem_cons_self _ _))))
    · cases hpm : parseMembers n (skipWs rest) with
      | none => simp
      | some p =>
        exfalso
        have hb : '\x7d' ∈ skipWs rest := parseMembers_brace n (skipWs rest) p.1 p.2 (by rw [hpm])
        exact hnb (mem_skipWs (by rw [hsk]; exact List.mem_cons_of_mem _ (mem_skipWs hb)))

lemma parseJson_open_brace_none (cs rest : List Char)
    (hsk : skipWs cs = '\x7b' :: rest) (hnb : '\x7d' ∉ cs) :
    parseJson cs = none := by
  unfold parseJson
  rw [parseVal_open_brace (cs.length + 1) cs rest hsk hnb]

/-- The spec-claimed oversized search request: a syntactically valid search whose
4100-character query makes the whole document 4134 bytes. -/
def searchPre : List Char := "\x7b\"command\": \"search\", \"query\": \"".toList

def longSearchPayload : List Char :=
  searchPre ++ (List.replicate 4100 'a' ++ ['"', '\x7d'])

/-- A complete 19-byte ping request padded past the 4096-byte window with
trailing whitespace. -/
def pingDoc : List Char := "\x7b\"command\": \"ping\"\x7d".toList

def paddedPingPayload : List Char := pingDoc ++ List.replicate 4078 ' '

lemma searchPre_len : searchPre.length = 32 := by decide

lemma longSearch_take :
    longSearchPayload.take 4096 = searchPre ++ List.replicate 4064 'a' := by
  unfold longSearchPayload
  rw [List.take_append_eq_append_take, searchPre_len]
  rw [List.take_of_length_le (by rw [searchPre_len]; omega)]
  rw [show (4096 - 32 : Nat) = 4064 from rfl]
  rw [List.take_append_eq_append_take, List.length_replicate]
  rw [show (4064 - 4100 : Nat) = 0 from rfl, List.take_zero, List.append_nil]
  rw [List.take_replicate]
  norm_num

lemma paddedPing_take :
    paddedPingPayload.take 4096 = pingDoc ++ List.replicate 4077 ' ' := by
  unfold paddedPingPayload
  rw [List.take_append_eq_append_take]
  rw [List.take_of_length_le (by decide)]
  rw [show pingDoc.length = 19 from by decide]
  rw [show (4096 - 19 : Nat) = 4077 from rfl, List.take_replicate]
  norm_num

lemma skipWs_replicate_space (k : Nat) : skipWs (List.replicate k ' ') = [] := by
  induction k with
  | zero => rfl
  | succ n ih =>
    rw [List.replicate_succ]
    show List.dropWhile _ _ = []
    rw [List.dropWhile_cons]
    simp only [decide_eq_true_eq]
    split
    · exact ih
    · simp at *

lemma parseVal_ping (k : Nat) :
    parseVal (k + 20) (pingDoc ++ List.replicate k ' ') =
      some (Json.obj [("command", Json.str "ping")], List.replicate k ' ') := rfl

lemma parseJson_paddedPing (k : Nat) :
    parseJson (pingDoc ++ List.replicate k ' ') =
      some (Json.obj [("command", Json.str "ping")]) := by
  unfold parseJson
  rw [show (pingDoc ++ List.replicate k ' ').length + 1 = k + 20 from by
    rw [List.length_append, show pingDoc.length = 19 from by decide, List.length_replicate]
    omega]
  rw [parseVal_ping k]
  simp only [skipWs_replicate_space k, if_true]

/-- **C10**: one `conn.recv(4096)` bounds what the daemon ever sees of a request
to its first 4096 bytes, and whenever that truncated prefix fails to parse as
JSON — as it does for the claim's oversized-search example, whose prefix cuts
the document off inside the query string — the connection is answered with the
structured parse-error object, never with search results. -/
theorem recv_truncation (encode : String → Vec) (sim : Vec → List Vec → List ℚ)
    (fs : List (String × Option IndexData)) (indices : List (String × IndexData))
    (payload : List Char)
    (hlen : 4096 < payload.length)
    (hparse : parseJson (payload.take 4096) = none) :
    daemonStep encode sim fs indices payload =
      handleData encode sim fs indices (payload.take 4096) ∧
    daemonStep encode sim fs indices payload =
      ⟨some Reply.parseError, none, indices, true⟩ := by
  have hne : payload.take 4096 ≠ [] := by
    intro h0
    have h1 : (payload.take 4096).length = 4096 := by
      rw [List.length_take]; omega
    rw [h0] at h1
    simp at h1
  refine ⟨?_, ?_⟩
  · unfold daemonStep; rw [if_neg hne]
  · unfold daemonStep handleData; rw [if_neg hne, hparse]

/-- Witness: the claim's own example — a well-formed 4134-byte search request
with a 4100-character query — is answered with the parse-error reply. -/
theorem recv_truncation_witness :
    4096 < longSearchPayload.length ∧
    daemonStep encode0 simOnes [] [] longSearchPayload =
      ⟨some Reply.parseError, none, [], true⟩ := by
  have hlen : 4096 < longSearchPayload.length := by
    unfold longSearchPayload
    rw [List.length_append, List.length_append, searchPre_len, List.length_replicate]
    norm_num
  have hsk : skipWs (searchPre ++ List.replicate 4064 'a') =
      '\x7b' :: ("\"command\": \"search\", \"query\": \"".toList ++ List.replicate 4064 'a') := rfl
  have hnb : '\x7d' ∉ searchPre ++ List.replicate 4064 'a' := by
    intro hmem
    rcases List.mem_append.mp hmem with hm | hm
    · exact absurd hm (by decide)
    · exact absurd (List.eq_of_mem_replicate hm) (by decide)
  have hparse : parseJson (longSearchPayload.take 4096) = none := by
    rw [longSearch_take]
    exact parseJson_open_brace_none _ _ hsk hnb
  exact ⟨hlen, (recv_truncation encode0 simOnes [] [] longSearchPayload hlen hparse).2⟩

/-- **C10** (counterexample): a 4097-byte request — a complete 19-byte ping
document padded with trailing spaces — exceeds the 4096-byte window, yet its
truncated prefix still parses, so the daemon answers with `pong`, not with the
parse-error object the claim promises for every oversized request. -/
theorem oversized_request_not_parse_error :
    4096 < paddedPingPayload.length ∧
    daemonStep encode0 simOnes [] [] paddedPingPayload =
      ⟨some Reply.statusPong, none, [], true⟩ := by
  refine ⟨?_, ?_⟩
  · unfold paddedPingPayload
    rw [List.length_append, show pingDoc.length = 19 from by decide, List.length_replicate]
    norm_num
  · unfold daemonStep
    rw [paddedPing_take]
    have hne2 : pingDoc ++ List.replicate 4077 ' ' ≠ [] := by
      intro h0
      rw [List.append_eq_nil] at h0
      exact absurd h0.1 (by decide)
    rw [if_neg hne2]
    unfold handleData
    rw [parseJson_paddedPing 4077]
    rfl

end SmartSearch